import Mathlib

/-!
Verification development for the chunkscope repository.

Texts are modelled as lists of characters; Python string primitives
(find, split, join, strip, slicing) are embedded as executable functions
with the same semantics on the inputs that occur here.  Scores and
similarities are modelled as rationals; the floating point arithmetic of
the source is treated as exact arithmetic.
-/

namespace ChunkScope

/- ## Python string primitives over List Char -/

/-- Python str.find: index of the first occurrence of pat in hay, or -1. -/
def pyFindNat (hay pat : List Char) : Option Nat :=
  (List.range (hay.length + 1)).find? (fun i => pat.isPrefixOf (hay.drop i))

/-- Python str.find returning -1 when absent. -/
def pyFind (hay pat : List Char) : Int :=
  match pyFindNat hay pat with
  | some i => (i : Int)
  | none => -1

/-- Python str.split with a nonempty separator, fuel-driven; the fuel
    (length of the string plus one) always suffices because each step
    drops at least one character. -/
def pySplitFuel : Nat → List Char → List Char → List (List Char)
  | 0, _, s => [s]
  | fuel + 1, sep, s =>
    match pyFindNat s sep with
    | none => [s]
    | some i => s.take i :: pySplitFuel fuel sep (s.drop (i + sep.length))

/-- Python str.split(sep) for a nonempty separator sep. -/
def pySplit (sep s : List Char) : List (List Char) :=
  if sep.isEmpty then [s] else pySplitFuel (s.length + 1) sep s

/-- Python sep.join(xs). -/
def pyJoin (sep : List Char) (xs : List (List Char)) : List Char :=
  List.intercalate sep xs

/-- Python whitespace characters recognized by str.strip(). -/
def isPySpace (c : Char) : Bool :=
  c == ' ' || c == '\t' || c == '\n' || c == '\r' || c.toNat == 11 || c.toNat == 12

/-- Python str.strip(): remove leading and trailing whitespace. -/
def pyStrip (s : List Char) : List Char :=
  ((s.dropWhile isPySpace).reverse.dropWhile isPySpace).reverse

/-- Python substring membership test (needle in hay). -/
def pyContains (hay needle : List Char) : Bool :=
  (pyFindNat hay needle).isSome

/-- Python slice s[a:b] for 0 <= a <= b <= len(s). -/
def pySlice (s : List Char) (a b : Nat) : List Char :=
  (s.drop a).take (b - a)

/- ## Chunking configuration (src/backend/app/schemas/chunk.py)

   ChunkingConfig is a pydantic model; its field constraints are the
   ge/le bounds declared on each field. -/

structure ChunkingConfig where
  chunkSize : Int
  minChunkSize : Int
  overlap : Int
  threshold : ℚ
  thresholdPercentile : Int
  windowSize : Int
  deriving Repr, DecidableEq

/-- Pydantic validation of ChunkingConfig: chunk_size in [10, 10000],
    min_chunk_size >= 10, overlap >= 0, threshold in [0, 1],
    threshold_percentile in [0, 100], window_size in [0, 10]. -/
def ChunkingConfig.valid (c : ChunkingConfig) : Bool :=
  10 ≤ c.chunkSize && c.chunkSize ≤ 10000 &&
  10 ≤ c.minChunkSize &&
  0 ≤ c.overlap &&
  0 ≤ c.threshold && c.threshold ≤ 1 &&
  0 ≤ c.thresholdPercentile && c.thresholdPercentile ≤ 100 &&
  0 ≤ c.windowSize && c.windowSize ≤ 10

/- ## RecursiveChunker (src/backend/app/services/chunkers/recursive_chunker.py) -/

/-- A chunk candidate as produced by the chunkers: text plus character
    offsets.  Offsets are integers because _make_chunk can propagate the
    -1 of a failed str.find. -/
structure ChunkOut where
  text : List Char
  startChar : Int
  endChar : Int
  deriving Repr, DecidableEq

/-- Separator list of RecursiveChunker.__init__. -/
def recursiveChunkerSeparators : List (List Char) :=
  [['\n', '\n'], ['\n'], [' '], []]

/-- RecursiveChunker._make_chunk: locate chunk_text in original_text by
    str.find when no start index is given. -/
def makeChunk (chunkText originalText : List Char) (startIndex : Int) : ChunkOut :=
  let s := if startIndex = -1 then pyFind originalText chunkText else startIndex
  { text := chunkText, startChar := s, endChar := s + chunkText.length }

/-- RecursiveChunker._create_chunks: hard split by character length.
    The source advances start by size - overlap and loops while
    start < len(text); the fuel models that loop (it does not terminate
    in the source when overlap >= size, but this base case is
    unreachable from RecursiveChunker.chunk because the separator list
    ends with the empty separator). -/
def createChunksFuel (text : List Char) (size overlap : Int) : Nat → Int → List ChunkOut
  | 0, _ => []
  | fuel + 1, start =>
    if start < (text.length : Int) then
      let e := min (start + size) (text.length : Int)
      let chunkText := pySlice text start.toNat e.toNat
      makeChunk chunkText text start :: createChunksFuel text size overlap fuel (start + (size - overlap))
    else []

def createChunks (text : List Char) (size overlap : Int) : List ChunkOut :=
  createChunksFuel text size overlap (text.length + 1) 0

/-- Inner accumulation loop of RecursiveChunker._recursive_split: walk
    the splits keeping a current group; when the next split would
    overflow chunk_size, finalize the current group first. -/
def recursiveSplitLoop (cs sepLen : Int) (finalize : List (List Char) → List ChunkOut) :
    List (List Char) → List (List Char) → Int → List ChunkOut
  | [], cur, _ => if cur.isEmpty then [] else finalize cur
  | s :: ss, cur, curLen =>
    if curLen + s.length + sepLen > cs then
      (if cur.isEmpty then [] else finalize cur) ++
        recursiveSplitLoop cs sepLen finalize ss [s] ((s.length : Int) + sepLen)
    else
      recursiveSplitLoop cs sepLen finalize ss (cur ++ [s]) (curLen + s.length + sepLen)

/-- RecursiveChunker._recursive_split. -/
def recursiveSplit : List (List Char) → List Char → Int → Int → List ChunkOut
  | [], text, cs, ov => createChunks text cs ov
  | sep :: rest, text, cs, ov =>
    let splits := if sep.isEmpty then text.map (fun c => [c]) else pySplit sep text
    recursiveSplitLoop cs sep.length
      (fun cur =>
        let joined := pyJoin sep cur
        if (joined.length : Int) > cs then recursiveSplit rest joined cs ov
        else [makeChunk joined text (-1)])
      splits [] 0

/-- RecursiveChunker.chunk. -/
def recursiveChunkerChunk (text : List Char) (cfg : ChunkingConfig) : List ChunkOut :=
  recursiveSplit recursiveChunkerSeparators text cfg.chunkSize cfg.overlap

/- ## recursive_chunking (src/backend/app/services/chunker.py) -/

/-- Separator list of chunker.recursive_chunking. -/
def chunkerPySeparators : List (List Char) :=
  [['\n', '\n'], ['\n'], ['.', ' '], [' '], []]

/-- Inner loop of chunker.split_text: pieces carry their separator; an
    oversized piece is recursively split with the remaining separators. -/
def splitTextLoop (cs : Int) (sep : List Char) (recur : List Char → List (List Char)) :
    List (List Char) → List Char → List (List Char)
  | [], cur => if cur.isEmpty then [] else [cur]
  | s :: ss, cur =>
    let piece := if sep.isEmpty then s else s ++ sep
    if (cur.length : Int) + piece.length > cs then
      (if cur.isEmpty then [] else [cur]) ++
        (if (piece.length : Int) > cs then recur piece ++ splitTextLoop cs sep recur ss []
         else splitTextLoop cs sep recur ss piece)
    else splitTextLoop cs sep recur ss (cur ++ piece)

/-- chunker.split_text. -/
def splitTextPy : List (List Char) → List Char → Int → List (List Char)
  | [], text, _ => [text]
  | sep :: rest, text, cs =>
    let splits := if sep.isEmpty then text.map (fun c => [c]) else pySplit sep text
    splitTextLoop cs sep (fun p => splitTextPy rest p cs) splits []

/-- A chunk with nonnegative offsets, as assembled by recursive_chunking. -/
structure PosChunk where
  text : List Char
  startChar : Nat
  endChar : Nat
  deriving Repr, DecidableEq

/-- Offset assembly at the end of chunker.recursive_chunking: skip
    whitespace-only chunks, advance a running position. -/
def attachOffsets : List (List Char) → Nat → List PosChunk
  | [], _ => []
  | c :: rest, pos =>
    if (pyStrip c).isEmpty then attachOffsets rest (pos + c.length)
    else { text := c, startChar := pos, endChar := pos + c.length } :: attachOffsets rest (pos + c.length)

/-- chunker.recursive_chunking (the overlap parameter is unused in the
    source as well). -/
def recursiveChunking (text : List Char) (cs _overlap : Int) : List PosChunk :=
  attachOffsets (splitTextPy chunkerPySeparators text cs) 0

/- ## Claim C1: failing input for the offset invariant -/

/-- The text aaaa, newline, then twelve b characters. -/
def c1Text : List Char := "aaaa\nbbbbbbbbbbbb".toList

def c1Config : ChunkingConfig :=
  { chunkSize := 10, minChunkSize := 100, overlap := 0,
    threshold := 1/2, thresholdPercentile := 90, windowSize := 1 }

/-- C1: on the text aaaa newline b*12 with chunk_size 10, the recursive
    chunker emits a chunk whose recorded span of the original text does
    not contain the trimmed chunk text: _make_chunk computes offsets
    against the recursion-level subtext, not the original text.  The
    offsets do stay within bounds here, but the containment part of the
    claimed invariant fails. -/
theorem c1_offsets_wrong :
    c1Config.valid = true ∧
    ∃ c ∈ recursiveChunkerChunk c1Text c1Config,
      0 ≤ c.startChar ∧ c.startChar ≤ c.endChar ∧ c.endChar ≤ (c1Text.length : Int) ∧
      pyContains (pySlice c1Text c.startChar.toNat c.endChar.toNat) (pyStrip c.text) = false := by
  refine ⟨by norm_num [ChunkingConfig.valid, c1Config], ⟨⟨"bbbbbbbbbb".toList, 0, 10⟩, by decide, by decide, by decide, by decide, by decide⟩⟩

/- ## Chunker registry (src/backend/app/services/chunkers/__init__.py) -/

inductive ChunkerTag
  | recursive | semantic | sentenceWindow | paragraph | codeAware | headingBased
  deriving Repr, DecidableEq, Inhabited

/-- CHUNKER_REGISTRY. -/
def chunkerRegistry : List (List Char × ChunkerTag) :=
  [("recursive".toList, .recursive),
   ("semantic".toList, .semantic),
   ("sentence_window".toList, .sentenceWindow),
   ("paragraph".toList, .paragraph),
   ("code_aware".toList, .codeAware),
   ("heading_based".toList, .headingBased)]

/-- Python str.lower on ASCII text. -/
def pyLower (s : List Char) : List Char := s.map Char.toLower

/-- Dictionary get over an association list, as CHUNKER_REGISTRY.get. -/
def regLookup {β : Type} (a : List Char) : List (List Char × β) → Option β
  | [] => none
  | kv :: tl => if a = kv.1 then some kv.2 else regLookup a tl

/-- get_chunker: registry lookup on method.lower(), raising AppException
    (modelled as an error value) for unknown methods. -/
def getChunker (method : List Char) : Except (List Char) ChunkerTag :=
  match regLookup (pyLower method) chunkerRegistry with
  | some t => Except.ok t
  | none => Except.error ("Unknown chunking method: ".toList ++ method)

/-- ChunkingService.chunk first defaults a falsy method string to
    "recursive" (method = config.method if config.method else
    "recursive") before calling get_chunker; an empty strategy name is
    therefore never passed to the registry lookup. -/
def effectiveMethod (method : List Char) : List Char :=
  if method = [] then "recursive".toList else method

/-- The failure surface of a chunking request: pydantic validates the
    ChunkingConfig when it is constructed (the method string itself is
    unconstrained), then ChunkingService.chunk defaults a falsy method
    to "recursive" and get_chunker resolves it; no further configuration
    check exists in the chunkers. -/
def chunkAdmission (method : List Char) (cfg : ChunkingConfig) : Except (List Char) ChunkerTag :=
  if cfg.valid then getChunker (effectiveMethod method)
  else Except.error "ValidationError".toList

theorem regLookup_eq_none_iff (a : List Char) (l : List (List Char × ChunkerTag)) :
    regLookup a l = none ↔ a ∉ l.map Prod.fst := by
  induction l with
  | nil => simp [regLookup]
  | cons hd tl ih =>
    by_cases h : a = hd.1
    · subst h
      simp [regLookup]
    · simp [regLookup, h, ih]

theorem getChunker_ok_iff (method : List Char) :
    (∃ t, getChunker method = Except.ok t) ↔ pyLower method ∈ chunkerRegistry.map Prod.fst := by
  unfold getChunker
  cases hl : regLookup (pyLower method) chunkerRegistry with
  | none =>
    rw [regLookup_eq_none_iff] at hl
    simp [hl]
  | some u =>
    have : pyLower method ∈ chunkerRegistry.map Prod.fst := by
      by_contra hmem
      rw [← regLookup_eq_none_iff] at hmem
      rw [hmem] at hl
      cases hl
    simp [this]

/-- C7 (amended): a chunking request fails exactly when the pydantic
    config validation rejects the configuration or when the lowercased
    strategy name, after an empty name defaults to "recursive", is not a
    registry key; in particular the relation of overlap to chunk_size
    plays no role, and the empty strategy name chunks normally. -/
theorem c7_failure_surface (method : List Char) (cfg : ChunkingConfig) :
    (∃ t, chunkAdmission method cfg = Except.ok t) ↔
      (cfg.valid = true ∧ pyLower (effectiveMethod method) ∈ chunkerRegistry.map Prod.fst) := by
  unfold chunkAdmission
  cases hv : cfg.valid with
  | false => simp
  | true => simp [getChunker_ok_iff]

/-- Configuration with overlap far above chunk_size: pydantic accepts it. -/
def c7Config : ChunkingConfig :=
  { chunkSize := 100, minChunkSize := 100, overlap := 500,
    threshold := 1/2, thresholdPercentile := 90, windowSize := 1 }

/-- Configuration with 0 < chunk_size < 10: pydantic rejects it. -/
def c7SmallConfig : ChunkingConfig :=
  { chunkSize := 5, minChunkSize := 100, overlap := 0,
    threshold := 1/2, thresholdPercentile := 90, windowSize := 1 }

/-- C7 counterexample: a recursive chunking request with overlap 500 and
    chunk_size 100 is admitted and chunks a text normally, although the
    claim demands an InvalidConfig failure; a request with chunk_size 5
    is rejected by validation although the claim allows failure only for
    chunk_size <= 0; and the empty strategy name is not rejected as
    unknown but defaults to the recursive chunker. -/
theorem c7_counterexample :
    c7Config.valid = true ∧
    c7Config.overlap ≥ c7Config.chunkSize ∧
    chunkAdmission "recursive".toList c7Config = Except.ok ChunkerTag.recursive ∧
    chunkAdmission [] c7Config = Except.ok ChunkerTag.recursive ∧
    recursiveChunkerChunk "short text".toList c7Config =
      [⟨"short text".toList, 0, 10⟩] ∧
    c7SmallConfig.valid = false ∧ 0 < c7SmallConfig.chunkSize := by
  have hv : c7Config.valid = true := by norm_num [ChunkingConfig.valid, c7Config]
  refine ⟨hv, by norm_num [c7Config], ?_, ?_, by decide, ?_, by norm_num [c7SmallConfig]⟩
  · unfold chunkAdmission
    rw [hv]
    simp only [if_true]
    rfl
  · unfold chunkAdmission
    rw [hv]
    simp only [if_true]
    rfl
  · norm_num [ChunkingConfig.valid, c7SmallConfig]

/- ## Query augmentor (src/backend/app/services/query_augmentor.py) -/

/-- The fixed response of _get_completion when no API key is configured. -/
def simulatedPlaceholder : List Char := "SIMULATED RESPONSE: No API Key provided.".toList

/-- Python strip of double-quote characters from both ends. -/
def pyStripQuotes (s : List Char) : List Char :=
  ((s.dropWhile (· == '"')).reverse.dropWhile (· == '"')).reverse

/-- Line-split fallback parsing of augment_multi_query: split the
    response on newlines, keep nonblank lines stripped of whitespace and
    quotes, and drop lines that begin with a square bracket. -/
def multiQueryVariants (response : List Char) : List (List Char) :=
  let lines := ((pySplit ['\n'] response).filter
      (fun l => !(pyStrip l).isEmpty)).map (fun l => pyStripQuotes (pyStrip l))
  lines.filter (fun l =>
    !l.isEmpty &&
    (match l with
     | '[' :: _ => false
     | ']' :: _ => false
     | _ => true))

/-- Fallback branch of augment_multi_query: if no variants were parsed
    return the original query alone, otherwise the first num_variants
    parsed variants. -/
def multiQueryFallback (response query : List Char) (numVariants : Nat) : List (List Char) :=
  let variants := multiQueryVariants response
  if variants.isEmpty then [query] else variants.take numVariants

/-- augment_multi_query when no LLM client is configured: the response
    text is the fixed placeholder, which json.loads rejects (it is not
    JSON), so the line-split fallback runs on it. -/
def multiQueryNoLLM (query : List Char) (numVariants : Nat) : List (List Char) :=
  multiQueryFallback simulatedPlaceholder query numVariants

/-- augment_hyde when no LLM client is configured. -/
def hydeNoLLM (_query : List Char) : List Char := simulatedPlaceholder

/-- augment_expansion when no LLM client is configured. -/
def expansionNoLLM (_query : List Char) : List Char := simulatedPlaceholder

/-- C8 counterexample: with no LLM configured, MultiQuery on the query
    "what is RAG" returns only the fixed placeholder string; the
    original query is not in the returned set, contradicting the claimed
    preservation guarantee. -/
theorem c8_counterexample :
    multiQueryNoLLM "what is RAG".toList 3 = [simulatedPlaceholder] ∧
    "what is RAG".toList ∉ multiQueryNoLLM "what is RAG".toList 3 := by
  constructor
  · decide
  · decide

/-- C8 (amended): with no LLM configured all three augmentation
    operations return the fixed deterministic placeholder; MultiQuery
    returns the one-element list holding it (for any requested number of
    variants at least 1), independent of the query, so the original
    query is preserved only if it equals the placeholder. -/
theorem c8_placeholder_behavior (query : List Char) (n : Nat) (hn : 1 ≤ n) :
    multiQueryNoLLM query n = [simulatedPlaceholder] ∧
    hydeNoLLM query = simulatedPlaceholder ∧
    expansionNoLLM query = simulatedPlaceholder := by
  refine ⟨?_, rfl, rfl⟩
  unfold multiQueryNoLLM multiQueryFallback
  rw [show multiQueryVariants simulatedPlaceholder = [simulatedPlaceholder] from by decide]
  match n, hn with
  | n + 1, _ => simp

/-- C8 witness: the amended behavior at the query "foo" with 3 variants. -/
theorem c8_placeholder_behavior_witness :
    multiQueryNoLLM "foo".toList 3 = [simulatedPlaceholder] ∧
    hydeNoLLM "foo".toList = simulatedPlaceholder ∧
    expansionNoLLM "foo".toList = simulatedPlaceholder :=
  c8_placeholder_behavior "foo".toList 3 (by decide)

/- ## Claim C9: the recursive splitting algorithm -/

/-- The piece formed from one split: the split followed by its separator
    when the separator is nonempty. -/
def toPiece (sep s : List Char) : List Char :=
  if sep.isEmpty then s else s ++ sep

/-- Finalizing the accumulator: a nonempty accumulated group becomes one
    chunk, an empty one is dropped. -/
def emitCur (cur : List Char) : List (List Char) :=
  if cur.isEmpty then [] else [cur]

/-- State of the greedy packing pass: finished chunks and the group
    being accumulated. -/
structure PackState where
  done : List (List Char)
  cur : List Char
  deriving Repr, DecidableEq

/-- One greedy packing step, written from the words of the claim: when
    the next piece would overflow chunkSize, finalize the accumulated
    group; an oversized piece is split recursively with the remaining
    separator suffix, an ordinary piece seeds the next group. -/
def packStep (cs : Int) (recur : List Char → List (List Char)) (st : PackState) (p : List Char) : PackState :=
  if (st.cur.length : Int) + p.length > cs then
    if (p.length : Int) > cs then
      { done := st.done ++ emitCur st.cur ++ recur p, cur := [] }
    else
      { done := st.done ++ emitCur st.cur, cur := p }
  else { done := st.done, cur := st.cur ++ p }

/-- The recursive splitting algorithm as claimed: try each separator in
    order, greedily pack the pieces, recurse into oversized pieces with
    the remaining separator suffix; the empty separator splits per
    character (this is the specification-side definition, to be compared
    with splitTextPy from the source). -/
def claimedSplit : List (List Char) → List Char → Int → List (List Char)
  | [], text, _ => [text]
  | sep :: rest, text, cs =>
    let splits := if sep.isEmpty then text.map (fun c => [c]) else pySplit sep text
    let final := splits.foldl
      (fun st s => packStep cs (fun p => claimedSplit rest p cs) st (toPiece sep s)) ⟨[], []⟩
    final.done ++ emitCur final.cur

theorem splitTextLoop_eq_foldl (cs : Int) (sep : List Char) (recur : List Char → List (List Char)) :
    ∀ (ss : List (List Char)) (done : List (List Char)) (cur : List Char),
      done ++ splitTextLoop cs sep recur ss cur =
        (let st := ss.foldl (fun st s => packStep cs recur st (toPiece sep s)) ⟨done, cur⟩
         st.done ++ emitCur st.cur) := by
  intro ss
  induction ss with
  | nil =>
    intro done cur
    simp only [splitTextLoop, List.foldl_nil, emitCur]
  | cons s ss ih =>
    intro done cur
    simp only [splitTextLoop, List.foldl_cons, packStep, toPiece, emitCur]
    by_cases hov : (cur.length : Int) + (if sep.isEmpty then s else s ++ sep).length > cs
    · rw [if_pos hov, if_pos hov]
      by_cases hbig : ((if sep.isEmpty then s else s ++ sep).length : Int) > cs
      · rw [if_pos hbig, if_pos hbig]
        have := ih (done ++ (if cur.isEmpty then [] else [cur]) ++ recur (if sep.isEmpty then s else s ++ sep)) []
        simp only [toPiece, packStep, emitCur] at this
        rw [← this]
        simp [List.append_assoc]
      · rw [if_neg hbig, if_neg hbig]
        have := ih (done ++ (if cur.isEmpty then [] else [cur])) (if sep.isEmpty then s else s ++ sep)
        simp only [toPiece, packStep, emitCur] at this
        rw [← this]
        simp [List.append_assoc]
    · rw [if_neg hov, if_neg hov]
      have := ih done (cur ++ (if sep.isEmpty then s else s ++ sep))
      simp only [toPiece, packStep, emitCur] at this
      rw [← this]

/-- C9 (amended part 1): chunker.split_text implements exactly the
    claimed algorithm, namely greedy packing with recursion into
    oversized pieces carrying the remaining separator suffix. -/
theorem c9_split_text_refines_claim :
    ∀ (seps : List (List Char)) (text : List Char) (cs : Int),
      splitTextPy seps text cs = claimedSplit seps text cs := by
  intro seps
  induction seps with
  | nil => intro text cs; rfl
  | cons sep rest ih =>
    intro text cs
    have hrec : (fun p => splitTextPy rest p cs) = (fun p => claimedSplit rest p cs) :=
      funext (fun p => ih p cs)
    show splitTextLoop cs sep (fun p => splitTextPy rest p cs)
        (if sep.isEmpty then text.map (fun c => [c]) else pySplit sep text) [] = _
    rw [hrec]
    have := splitTextLoop_eq_foldl cs sep (fun p => claimedSplit rest p cs)
      (if sep.isEmpty then text.map (fun c => [c]) else pySplit sep text) [] []
    simp only [List.nil_append] at this
    rw [this]
    rfl

/-- C9 counterexample: the chunking strategy registered as "recursive"
    (RecursiveChunker, used by the chunking service and the pipeline
    splitter) does not use the claimed separator list: it lacks the
    sentence separator, and on the text "One. Two. Four." with
    chunk_size 10 it produces different chunk texts than the claimed
    algorithm, which chunker.recursive_chunking implements. -/
theorem c9_counterexample :
    recursiveChunkerSeparators ≠ chunkerPySeparators ∧
    chunkerPySeparators = [['\n', '\n'], ['\n'], ['.', ' '], [' '], []] ∧
    (recursiveChunkerChunk "One. Two. Four.".toList c1Config).map ChunkOut.text ≠
      (recursiveChunking "One. Two. Four.".toList 10 0).map PosChunk.text := by
  refine ⟨by decide, by decide, by decide⟩

/- ## Retrieval results and stable descending sort

   RetrievalResult rows are modelled by chunk id and score; Python
   sorted(key=score, reverse=True) is a stable descending sort, embedded
   as stable insertion sort (extensionally equal to any stable sort). -/

structure RResult where
  id : Nat
  score : ℚ
  deriving Repr, DecidableEq, Inhabited

/-- Results ordered by non-increasing score. -/
def scoresSortedDesc (l : List RResult) : Prop :=
  List.Pairwise (fun a b => b.score ≤ a.score) l

/-- Python max over a list of scores (0 for the empty list, which the
    source never passes). -/
def listMax : List ℚ → ℚ
  | [] => 0
  | x :: xs => xs.foldl max x

/-- Python min over a list of scores. -/
def listMin : List ℚ → ℚ
  | [] => 0
  | x :: xs => xs.foldl min x

/-- Stable insert for descending order: the new element goes after every
    element with a greater-or-equal score. -/
def insertDesc (r : RResult) : List RResult → List RResult
  | [] => [r]
  | x :: xs => if r.score ≤ x.score then x :: insertDesc r xs else r :: x :: xs

/-- Stable sort by descending score. -/
def stableSortDesc (l : List RResult) : List RResult :=
  l.foldl (fun acc r => insertDesc r acc) []

theorem insertDesc_perm (r : RResult) (l : List RResult) :
    List.Perm (insertDesc r l) (r :: l) := by
  induction l with
  | nil => rfl
  | cons x xs ih =>
    by_cases h : r.score ≤ x.score
    · simp only [insertDesc, if_pos h]
      exact List.Perm.trans (ih.cons x) (List.Perm.swap r x xs)
    · simp only [insertDesc, if_neg h]
      exact List.Perm.refl _

theorem insertDesc_sorted (r : RResult) (l : List RResult)
    (hl : scoresSortedDesc l) : scoresSortedDesc (insertDesc r l) := by
  induction l with
  | nil => simp [insertDesc, scoresSortedDesc]
  | cons x xs ih =>
    rw [scoresSortedDesc, List.pairwise_cons] at hl
    by_cases h : r.score ≤ x.score
    · simp only [insertDesc, if_pos h]
      rw [scoresSortedDesc, List.pairwise_cons]
      refine ⟨?_, ih hl.2⟩
      intro y hy
      rcases List.mem_cons.mp ((insertDesc_perm r xs).mem_iff.mp hy) with hy | hy
      · rw [hy]; exact h
      · exact hl.1 y hy
    · simp only [insertDesc, if_neg h]
      rw [scoresSortedDesc, List.pairwise_cons]
      refine ⟨?_, List.pairwise_cons.mpr hl⟩
      intro y hy
      rcases List.mem_cons.mp hy with hy | hy
      · rw [hy]; exact le_of_lt (lt_of_not_le h)
      · exact le_trans (hl.1 y hy) (le_of_lt (lt_of_not_le h))

theorem stableSortDesc_sorted (l : List RResult) :
    scoresSortedDesc (stableSortDesc l) := by
  have : ∀ (xs : List RResult) (acc : List RResult), scoresSortedDesc acc →
      scoresSortedDesc (xs.foldl (fun acc r => insertDesc r acc) acc) := by
    intro xs
    induction xs with
    | nil => intro acc h; exact h
    | cons x xs ih =>
      intro acc h
      exact ih _ (insertDesc_sorted x acc h)
  exact this l [] (by simp [scoresSortedDesc])

theorem insertDesc_of_le (r : RResult) (l : List RResult)
    (h : ∀ x ∈ l, r.score ≤ x.score) : insertDesc r l = l ++ [r] := by
  induction l with
  | nil => rfl
  | cons x xs ih =>
    have hx : r.score ≤ x.score := h x (List.mem_cons_self x xs)
    simp only [insertDesc, if_pos hx, List.cons_append]
    rw [ih (fun y hy => h y (List.mem_cons_of_mem x hy))]

theorem stableSortDesc_of_sorted (l : List RResult) (h : scoresSortedDesc l) :
    stableSortDesc l = l := by
  induction l using List.reverseRecOn with
  | nil => rfl
  | append_singleton xs a ih =>
    rw [scoresSortedDesc, List.pairwise_append] at h
    unfold stableSortDesc
    rw [List.foldl_append]
    show insertDesc a (stableSortDesc xs) = xs ++ [a]
    rw [ih h.1, insertDesc_of_le]
    intro x hx
    exact h.2.2 x hx a (List.mem_singleton_self a)

/- ## HybridRetriever (src/backend/app/services/retrievers/hybrid_retriever.py) -/

/-- Min-max normalization of _combine_results: constant lists normalize
    to 1, otherwise scores map to (s - min) / (max - min). -/
def minmaxNormalize (rs : List RResult) : List RResult :=
  if rs.isEmpty then rs
  else
    let maxS := listMax (rs.map RResult.score)
    let minS := listMin (rs.map RResult.score)
    if maxS = minS then rs.map (fun r => { r with score := 1 })
    else rs.map (fun r => { r with score := (r.score - minS) / (maxS - minS) })

/-- Python dict assignment scores[cid] = value: overwrite in place,
    append when absent (insertion order preserved). -/
def dictSet (l : List RResult) (i : Nat) (v : ℚ) : List RResult :=
  match l with
  | [] => [⟨i, v⟩]
  | x :: xs => if x.id = i then ⟨i, v⟩ :: xs else x :: dictSet xs i v

/-- Python dict accumulation scores[cid]["score"] += value, appending a
    fresh entry when absent. -/
def dictAddTo (l : List RResult) (i : Nat) (v : ℚ) : List RResult :=
  match l with
  | [] => [⟨i, v⟩]
  | x :: xs => if x.id = i then ⟨i, x.score + v⟩ :: xs else x :: dictAddTo xs i v

/-- HybridRetriever._combine_results: normalize both lists, add the
    weighted vector scores into an insertion-ordered dict, accumulate
    the weighted keyword scores, then stable-sort descending and
    truncate to top_k. -/
def combineResults (vector keyword : List RResult) (alpha : ℚ) (topK : Nat) : List RResult :=
  (stableSortDesc
    ((minmaxNormalize keyword).foldl
      (fun acc r => dictAddTo acc r.id (r.score * (1 - alpha)))
      ((minmaxNormalize vector).foldl
        (fun acc r => dictSet acc r.id (r.score * alpha)) []))).take topK

/-- HybridRetriever.retrieve: the dense branch runs when alpha > 0 and a
    query embedding is present, the keyword branch when alpha < 1; the
    dense and keyword candidate lists stand for the repository search
    results (limit 2 * topK, ordered by the database). -/
def hybridRetrieve (dense keyword : List RResult) (alpha : ℚ) (topK : Nat)
    (hasEmbedding : Bool) : List RResult :=
  combineResults (if 0 < alpha ∧ hasEmbedding = true then dense else [])
    (if alpha < 1 then keyword else []) alpha topK

theorem dictSet_absent (l : List RResult) (i : Nat) (v : ℚ)
    (h : i ∉ l.map RResult.id) : dictSet l i v = l ++ [⟨i, v⟩] := by
  induction l with
  | nil => rfl
  | cons x xs ih =>
    simp only [List.map_cons, List.mem_cons] at h
    push_neg at h
    have hne : ¬(x.id = i) := fun hx => h.1 hx.symm
    show (if x.id = i then (⟨i, v⟩ : RResult) :: xs else x :: dictSet xs i v) = _
    rw [if_neg hne, ih h.2]
    rfl

theorem dictAddTo_absent (l : List RResult) (i : Nat) (v : ℚ)
    (h : i ∉ l.map RResult.id) : dictAddTo l i v = l ++ [⟨i, v⟩] := by
  induction l with
  | nil => rfl
  | cons x xs ih =>
    simp only [List.map_cons, List.mem_cons] at h
    push_neg at h
    have hne : ¬(x.id = i) := fun hx => h.1 hx.symm
    show (if x.id = i then (⟨i, x.score + v⟩ : RResult) :: xs else x :: dictAddTo xs i v) = _
    rw [if_neg hne, ih h.2]
    rfl

theorem foldl_dictSet_fresh (f : RResult → ℚ) :
    ∀ (rs acc : List RResult), (rs.map RResult.id).Nodup →
      (∀ r ∈ rs, r.id ∉ acc.map RResult.id) →
      rs.foldl (fun acc r => dictSet acc r.id (f r)) acc =
        acc ++ rs.map (fun r => ⟨r.id, f r⟩) := by
  intro rs
  induction rs with
  | nil => intro acc _ _; simp
  | cons r rs ih =>
    intro acc hnd hfresh
    simp only [List.map_cons, List.nodup_cons] at hnd
    have hfresh2 : ∀ r' ∈ rs, r'.id ∉ (acc ++ [(⟨r.id, f r⟩ : RResult)]).map RResult.id := by
      intro r' hr'
      simp only [List.map_append, List.mem_append, List.map_cons, List.map_nil,
        List.mem_singleton]
      push_neg
      refine ⟨fun hmem => hfresh r' (List.mem_cons_of_mem r hr') hmem, ?_⟩
      intro heq
      exact hnd.1 (heq ▸ List.mem_map_of_mem RResult.id hr')
    rw [List.foldl_cons, dictSet_absent acc r.id (f r) (hfresh r (List.mem_cons_self r rs))]
    have hih := ih (acc ++ [(⟨r.id, f r⟩ : RResult)]) hnd.2 hfresh2
    rw [hih]
    simp [List.append_assoc]

theorem foldl_dictAddTo_fresh (f : RResult → ℚ) :
    ∀ (rs acc : List RResult), (rs.map RResult.id).Nodup →
      (∀ r ∈ rs, r.id ∉ acc.map RResult.id) →
      rs.foldl (fun acc r => dictAddTo acc r.id (f r)) acc =
        acc ++ rs.map (fun r => ⟨r.id, f r⟩) := by
  intro rs
  induction rs with
  | nil => intro acc _ _; simp
  | cons r rs ih =>
    intro acc hnd hfresh
    simp only [List.map_cons, List.nodup_cons] at hnd
    have hfresh2 : ∀ r' ∈ rs, r'.id ∉ (acc ++ [(⟨r.id, f r⟩ : RResult)]).map RResult.id := by
      intro r' hr'
      simp only [List.map_append, List.mem_append, List.map_cons, List.map_nil,
        List.mem_singleton]
      push_neg
      refine ⟨fun hmem => hfresh r' (List.mem_cons_of_mem r hr') hmem, ?_⟩
      intro heq
      exact hnd.1 (heq ▸ List.mem_map_of_mem RResult.id hr')
    rw [List.foldl_cons, dictAddTo_absent acc r.id (f r) (hfresh r (List.mem_cons_self r rs))]
    have hih := ih (acc ++ [(⟨r.id, f r⟩ : RResult)]) hnd.2 hfresh2
    rw [hih]
    simp [List.append_assoc]

theorem minmaxNormalize_ids (rs : List RResult) :
    (minmaxNormalize rs).map RResult.id = rs.map RResult.id := by
  unfold minmaxNormalize
  by_cases he : rs.isEmpty
  · rw [if_pos he]
  · rw [if_neg he]
    by_cases hc : listMax (rs.map RResult.score) = listMin (rs.map RResult.score)
    · simp [hc, List.map_map, Function.comp]
    · simp [hc, List.map_map, Function.comp]

theorem foldl_min_le (xs : List ℚ) : ∀ x : ℚ, xs.foldl min x ≤ x := by
  induction xs with
  | nil => intro x; exact le_refl x
  | cons y ys ih =>
    intro x
    exact le_trans (ih (min x y)) (min_le_left x y)

theorem le_foldl_max (xs : List ℚ) : ∀ x : ℚ, x ≤ xs.foldl max x := by
  induction xs with
  | nil => intro x; exact le_refl x
  | cons y ys ih =>
    intro x
    exact le_trans (le_max_left x y) (ih (max x y))

theorem listMin_le_listMax (xs : List ℚ) (h : ¬xs.isEmpty) :
    listMin xs ≤ listMax xs := by
  cases xs with
  | nil => exact absurd rfl h
  | cons x xs =>
    exact le_trans (foldl_min_le xs x) (le_foldl_max xs x)

theorem minmaxNormalize_sorted (rs : List RResult) (h : scoresSortedDesc rs) :
    scoresSortedDesc (minmaxNormalize rs) := by
  unfold minmaxNormalize
  by_cases he : rs.isEmpty
  · rw [if_pos he]; exact h
  · rw [if_neg he]
    by_cases hc : listMax (rs.map RResult.score) = listMin (rs.map RResult.score)
    · rw [if_pos hc]
      rw [scoresSortedDesc, List.pairwise_map]
      exact h.imp (fun _ => le_refl 1)
    · rw [if_neg hc]
      have hmm : listMin (rs.map RResult.score) < listMax (rs.map RResult.score) := by
        rcases lt_or_eq_of_le (listMin_le_listMax (rs.map RResult.score) (by simpa using he)) with hlt | heq
        · exact hlt
        · exact absurd heq.symm hc
      have hd : (0 : ℚ) < listMax (rs.map RResult.score) - listMin (rs.map RResult.score) :=
        sub_pos.mpr hmm
      rw [scoresSortedDesc, List.pairwise_map]
      refine h.imp ?_
      intro a b hab
      show (b.score - _) / _ ≤ (a.score - _) / _
      exact (div_le_div_iff_of_pos_right hd).mpr (sub_le_sub_right hab _)

/-- C4 (amended): hybrid retrieval with alpha = 1 returns the dense
    candidates in the same order truncated to topK, and with alpha = 0
    the keyword candidates likewise, as chunk id sequences; the attached
    scores are min-max normalized rather than the raw retrieval scores. -/
theorem c4_alpha_extremes (dense keyword : List RResult) (topK : Nat)
    (hds : scoresSortedDesc dense) (hdn : (dense.map RResult.id).Nodup)
    (hks : scoresSortedDesc keyword) (hkn : (keyword.map RResult.id).Nodup) :
    (hybridRetrieve dense keyword 1 topK true).map RResult.id =
      (dense.take topK).map RResult.id ∧
    (hybridRetrieve dense keyword 0 topK true).map RResult.id =
      (keyword.take topK).map RResult.id := by
  have heta1 : (fun r : RResult => (⟨r.id, r.score * 1⟩ : RResult)) = id := by
    funext r
    show (⟨r.id, r.score * 1⟩ : RResult) = r
    rw [mul_one]
  constructor
  · unfold hybridRetrieve
    rw [if_pos (by norm_num), if_neg (by norm_num)]
    unfold combineResults
    have hidsN : ((minmaxNormalize dense).map RResult.id).Nodup := by
      rw [minmaxNormalize_ids]; exact hdn
    rw [foldl_dictSet_fresh (fun r => r.score * 1) (minmaxNormalize dense) [] hidsN (by simp)]
    show ((stableSortDesc ((minmaxNormalize []).foldl _
        ([] ++ (minmaxNormalize dense).map fun r => ⟨r.id, r.score * 1⟩))).take topK).map _ = _
    rw [show minmaxNormalize [] = [] from rfl]
    rw [List.foldl_nil, List.nil_append, heta1, List.map_id]
    rw [stableSortDesc_of_sorted _ (minmaxNormalize_sorted dense hds)]
    rw [List.map_take, minmaxNormalize_ids, ← List.map_take]
  · unfold hybridRetrieve
    rw [if_neg (by norm_num), if_pos (by norm_num)]
    unfold combineResults
    have hidsN : ((minmaxNormalize keyword).map RResult.id).Nodup := by
      rw [minmaxNormalize_ids]; exact hkn
    rw [show minmaxNormalize [] = [] from rfl]
    rw [List.foldl_nil]
    rw [foldl_dictAddTo_fresh (fun r => r.score * (1 - 0)) (minmaxNormalize keyword) [] hidsN (by simp)]
    have heta0 : (fun r : RResult => (⟨r.id, r.score * (1 - 0)⟩ : RResult)) = id := by
      funext r
      show (⟨r.id, r.score * (1 - 0)⟩ : RResult) = r
      norm_num
    rw [List.nil_append, heta0, List.map_id]
    rw [stableSortDesc_of_sorted _ (minmaxNormalize_sorted keyword hks)]
    rw [List.map_take, minmaxNormalize_ids, ← List.map_take]

/-- C4 witness: the amended equivalence at concrete dense and keyword
    candidate lists with topK 2. -/
theorem c4_alpha_extremes_witness :
    (hybridRetrieve [⟨1, 1⟩, ⟨2, 0⟩] [⟨3, 5⟩, ⟨4, 2⟩] 1 2 true).map RResult.id =
      (([⟨1, 1⟩, ⟨2, 0⟩] : List RResult).take 2).map RResult.id ∧
    (hybridRetrieve [⟨1, 1⟩, ⟨2, 0⟩] [⟨3, 5⟩, ⟨4, 2⟩] 0 2 true).map RResult.id =
      (([⟨3, 5⟩, ⟨4, 2⟩] : List RResult).take 2).map RResult.id :=
  c4_alpha_extremes [⟨1, 1⟩, ⟨2, 0⟩] [⟨3, 5⟩, ⟨4, 2⟩] 2
    (by norm_num [scoresSortedDesc]) (by norm_num)
    (by norm_num [scoresSortedDesc]) (by norm_num)

/-- C4 counterexample: with alpha = 1 and dense scores 2 and 0, the
    hybrid result list is not the dense list truncated to topK: the
    chunks agree but the scores come back min-max normalized (1 and 0
    instead of 2 and 0). -/
theorem c4_counterexample :
    hybridRetrieve [⟨1, 2⟩, ⟨2, 0⟩] [] 1 2 true = [⟨1, 1⟩, ⟨2, 0⟩] ∧
    hybridRetrieve [⟨1, 2⟩, ⟨2, 0⟩] [] 1 2 true ≠
      (([⟨1, 2⟩, ⟨2, 0⟩] : List RResult).take 2) := by
  constructor
  · norm_num [hybridRetrieve, combineResults, minmaxNormalize, listMax, listMin,
      dictSet, dictAddTo, stableSortDesc, insertDesc]
  · intro h
    have := congrArg (fun l => (l.map RResult.score)) h
    norm_num [hybridRetrieve, combineResults, minmaxNormalize, listMax, listMin,
      dictSet, dictAddTo, stableSortDesc, insertDesc] at this

/- ## MMRRetriever (src/backend/app/services/retrievers/mmr_retriever.py)

   The similarity arrays that the source computes with numpy cosine
   similarity over candidate embeddings are taken as inputs here
   (simsQ for similarities_to_query, docSim for doc_similarities); the
   discrete selection loop is embedded exactly. -/

/-- np.argmax: index of the first maximum (0 for the empty list, where
    numpy raises instead; the source never applies it to an empty
    list). -/
def argmaxGo : List ℚ → Nat → Nat → ℚ → Nat
  | [], _, bi, _ => bi
  | x :: xs, i, bi, bv => if bv < x then argmaxGo xs (i + 1) i x else argmaxGo xs (i + 1) bi bv

def argmaxIdx : List ℚ → Nat
  | [] => 0
  | x :: xs => argmaxGo xs 1 0 x

/-- The candidate maximizing the marginal-relevance score among the
    remaining indices. -/
def mmrBest (simsQ : List ℚ) (docSim : Nat → Nat → ℚ) (lam : ℚ)
    (sel remaining : List Nat) : Nat :=
  remaining.getD
    (argmaxIdx (remaining.map (fun i =>
      lam * simsQ.getD i 0 - (1 - lam) * listMax (sel.map (fun j => docSim i j))))) 0

/-- The while loop of _maximal_marginal_relevance, running while the
    selection is shorter than min(k, n); the fuel is the requested k.
    The inner emptiness guard models that np.argmax is partial; it is
    unreachable because the remaining pool empties only once all n
    indices are selected. -/
def mmrLoop (simsQ : List ℚ) (docSim : Nat → Nat → ℚ) (lam : ℚ) (kn : Nat) :
    Nat → List Nat → List Nat → List Nat
  | 0, sel, _ => sel
  | fuel + 1, sel, remaining =>
    if sel.length < kn then
      if remaining.isEmpty then sel
      else
        mmrLoop simsQ docSim lam kn fuel
          (sel ++ [mmrBest simsQ docSim lam sel remaining])
          (remaining.erase (mmrBest simsQ docSim lam sel remaining))
    else sel

/-- _maximal_marginal_relevance: start from the index most similar to
    the query, then iterate the marginal-relevance selection. -/
def mmrSelect (simsQ : List ℚ) (docSim : Nat → Nat → ℚ) (lam : ℚ) (k : Nat) : List Nat :=
  if simsQ.isEmpty then []
  else
    mmrLoop simsQ docSim lam (min k simsQ.length) k [argmaxIdx simsQ]
      ((List.range simsQ.length).filter (fun i => i ≠ argmaxIdx simsQ))

/-- MMRRetriever.retrieve: empty candidate set short-circuits, otherwise
    the selected candidates are returned in selection order carrying
    their original dense scores. -/
def mmrRetrieve (candidates : List RResult) (simsQ : List ℚ) (docSim : Nat → Nat → ℚ)
    (lam : ℚ) (topK : Nat) : List RResult :=
  if candidates.isEmpty then []
  else (mmrSelect simsQ docSim lam topK).map (fun i => candidates.getD i ⟨0, 0⟩)

/- ## ParentDocumentRetriever
   (src/backend/app/services/retrievers/parent_document_retriever.py) -/

/-- A child chunk row as returned by the dense search over chunks whose
    parent_chunk_id is set. -/
structure ChildRow where
  id : Nat
  parent : Nat
  score : ℚ
  deriving Repr, DecidableEq, Inhabited

/-- One step of the parent grouping: keep the best child score per
    parent id, preserving first-encounter dict order. -/
def updateParent (l : List (Nat × ℚ)) (row : ChildRow) : List (Nat × ℚ) :=
  match l with
  | [] => [(row.parent, row.score)]
  | p :: tl =>
    if p.1 = row.parent then (if p.2 < row.score then (p.1, row.score) :: tl else p :: tl)
    else p :: updateParent tl row

/-- The parent_scores dict of ParentDocumentRetriever.retrieve. -/
def parentBest (children : List ChildRow) : List (Nat × ℚ) :=
  children.foldl updateParent []

def pairLookup : List (Nat × ℚ) → Nat → Option ℚ
  | [], _ => none
  | p :: tl, i => if p.1 = i then some p.2 else pairLookup tl i

/-- ParentDocumentRetriever.retrieve after the child search: group
    children by parent keeping the maximum score, score the fetched
    parent chunks (whose database order is unspecified), sort descending
    and truncate.  The no-children fallback to plain dense retrieval and
    the child-id metadata are outside this embedding. -/
def parentRetrieve (children : List ChildRow) (parents : List Nat) (topK : Nat) : List RResult :=
  (stableSortDesc (parents.filterMap
    (fun p => (pairLookup (parentBest children) p).map (fun s => (⟨p, s⟩ : RResult))))).take topK

theorem mmrLoop_length_le (simsQ : List ℚ) (docSim : Nat → Nat → ℚ) (lam : ℚ) (kn : Nat) :
    ∀ (fuel : Nat) (sel remaining : List Nat),
      (mmrLoop simsQ docSim lam kn fuel sel remaining).length ≤ max sel.length kn := by
  intro fuel
  induction fuel with
  | zero => intro sel remaining; exact le_max_left _ _
  | succ fuel ih =>
    intro sel remaining
    show (if sel.length < kn then _ else sel).length ≤ _
    by_cases hlt : sel.length < kn
    · rw [if_pos hlt]
      by_cases hre : remaining.isEmpty
      · rw [if_pos hre]; exact le_max_left _ _
      · rw [if_neg hre]
        refine le_trans (ih _ _) ?_
        have h1 : (sel ++ [mmrBest simsQ docSim lam sel remaining]).length = sel.length + 1 := by
          simp
        rw [h1]
        have h2 : sel.length + 1 ≤ kn := hlt
        rw [max_eq_right h2]
        exact le_max_right _ _
    · rw [if_neg hlt]
      exact le_max_left _ _

theorem mmrSelect_length_le (simsQ : List ℚ) (docSim : Nat → Nat → ℚ) (lam : ℚ) (k : Nat) :
    (mmrSelect simsQ docSim lam k).length ≤ max 1 k := by
  unfold mmrSelect
  by_cases he : simsQ.isEmpty
  · rw [if_pos he]; simp
  · rw [if_neg he]
    refine le_trans (mmrLoop_length_le simsQ docSim lam (min k simsQ.length) k _ _) ?_
    have : ([argmaxIdx simsQ] : List Nat).length = 1 := rfl
    rw [this]
    exact max_le_max (le_refl 1) (min_le_left _ _)

/-- C6 (amended): hybrid combination and parent-document retrieval
    return result sequences ordered by non-increasing Score with at most
    topK entries; MMR returns at most max(1, topK) results (one result
    even when topK = 0 with a nonempty candidate pool), in selection
    order that need not be ordered by Score.  The dense and keyword
    lists themselves are ordered by the database query, outside this
    embedding. -/
theorem c6_ordering_amended :
    (∀ (v k : List RResult) (a : ℚ) (t : Nat),
        scoresSortedDesc (combineResults v k a t) ∧ (combineResults v k a t).length ≤ t) ∧
    (∀ (children : List ChildRow) (parents : List Nat) (t : Nat),
        scoresSortedDesc (parentRetrieve children parents t) ∧
          (parentRetrieve children parents t).length ≤ t) ∧
    (∀ (cands : List RResult) (simsQ : List ℚ) (docSim : Nat → Nat → ℚ) (lam : ℚ) (t : Nat),
        (mmrRetrieve cands simsQ docSim lam t).length ≤ max 1 t) := by
  refine ⟨?_, ?_, ?_⟩
  · intro v k a t
    constructor
    · exact List.Pairwise.sublist (List.take_sublist _ _) (stableSortDesc_sorted _)
    · unfold combineResults
      rw [List.length_take]
      exact min_le_left _ _
  · intro children parents t
    constructor
    · exact List.Pairwise.sublist (List.take_sublist _ _) (stableSortDesc_sorted _)
    · unfold parentRetrieve
      rw [List.length_take]
      exact min_le_left _ _
  · intro cands simsQ docSim lam t
    unfold mmrRetrieve
    by_cases he : cands.isEmpty
    · rw [if_pos he]; simp
    · rw [if_neg he]
      rw [List.length_map]
      exact mmrSelect_length_le simsQ docSim lam t

/-- Candidates, query similarities and pairwise similarities realizable
    by the unit vectors q = c1 = (3/5, 4/5), c2 = (4/5, 3/5),
    c3 = (0, 1), for which cosine similarity equals the (rational) dot
    product. -/
def c6Cands : List RResult := [⟨1, 1⟩, ⟨2, 24/25⟩, ⟨3, 4/5⟩]

def c6SimsQ : List ℚ := [1, 24/25, 4/5]

def c6DocSim : Nat → Nat → ℚ := fun i j =>
  ([[1, 24/25, 4/5], [24/25, 1, 3/5], [4/5, 3/5, 1]].getD i []).getD j 0

/-- C6 counterexample: with lambda = 1/4 and topK = 3, MMR on dense-
    ordered candidates returns scores [1, 4/5, 24/25], which is not
    non-increasing; and with topK = 0 it still returns one result, so
    the length bound of the claim also fails for MMR. -/
theorem c6_counterexample :
    scoresSortedDesc c6Cands ∧
    (mmrRetrieve c6Cands c6SimsQ c6DocSim (1/4) 3).map RResult.score = [1, 4/5, 24/25] ∧
    ¬ scoresSortedDesc (mmrRetrieve c6Cands c6SimsQ c6DocSim (1/4) 3) ∧
    (mmrRetrieve c6Cands c6SimsQ c6DocSim (1/4) 0).length = 1 := by
  refine ⟨?_, ?_, ?_, ?_⟩
  · norm_num [c6Cands, scoresSortedDesc, List.pairwise_cons]
  · norm_num [mmrRetrieve, mmrSelect, mmrLoop, mmrBest, argmaxIdx, argmaxGo, listMax,
      c6Cands, c6SimsQ, c6DocSim, List.range_succ]
  · norm_num [mmrRetrieve, mmrSelect, mmrLoop, mmrBest, argmaxIdx, argmaxGo, listMax,
      c6Cands, c6SimsQ, c6DocSim, List.range_succ, scoresSortedDesc, List.pairwise_cons]
  · norm_num [mmrRetrieve, mmrSelect, mmrLoop, mmrBest, argmaxIdx, argmaxGo, listMax,
      c6Cands, c6SimsQ, c6DocSim, List.range_succ]

/- ## SemanticChunker (src/backend/app/services/chunkers/semantic_chunker.py)

   Sentence segmentation (spacy) and sentence embeddings
   (SentenceTransformer) are external; sentences enter as offset pairs
   (start_char, end_char) and the per-gap cosine similarities enter as a
   rational list, one per gap between consecutive sentences.  The
   decision loop over gaps is embedded exactly. -/

/-- The valley test of the source loop: val_left is similarities[i-1]
    when i > 0 else 1.0, val_right is similarities[i+1] when
    i < n_sims - 1 else 1.0, and the gap is a valley when sim is less
    than or equal to both. -/
def codeValley (sims : List ℚ) (i : Nat) : Prop :=
  sims.getD i 0 ≤ (if 0 < i then sims.getD (i - 1) 0 else 1) ∧
  sims.getD i 0 ≤ (if i < sims.length - 1 then sims.getD (i + 1) 0 else 1)

instance (sims : List ℚ) (i : Nat) : Decidable (codeValley sims i) := by
  unfold codeValley; infer_instance

/-- The gap loop of SemanticChunker.chunk: walk the gaps carrying the
    accumulated sentence list; emit a chunk and reset exactly when the
    similarity is below the threshold, the gap is a valley, and the
    accumulated span is at least min_chunk_size; afterwards append
    sentence i+1; finalize the remaining accumulator at the end.
    Returns the chunk spans and the per-gap split decisions. -/
def semLoopGo (sents : List (Nat × Nat)) (sims : List ℚ) (th : ℚ) (m : Int) :
    Nat → Nat → List (Nat × Nat) → (List (Nat × Nat) × List Bool)
  | 0, _, current =>
    (if current.isEmpty then []
     else [((current.headD (0, 0)).1, (current.getLastD (0, 0)).2)], [])
  | rem + 1, i, current =>
    if (sims.getD i 0 < th ∧ codeValley sims i) ∧
        ((current.getLastD (0, 0)).2 : Int) - (current.headD (0, 0)).1 ≥ m then
      let next := semLoopGo sents sims th m rem (i + 1) [sents.getD (i + 1) (0, 0)]
      (((current.headD (0, 0)).1, (current.getLastD (0, 0)).2) :: next.1, true :: next.2)
    else
      let next := semLoopGo sents sims th m rem (i + 1) (current ++ [sents.getD (i + 1) (0, 0)])
      (next.1, false :: next.2)

/-- SemanticChunker.chunk on the multi-sentence path: seed the
    accumulator with the first sentence and run the gap loop. -/
def semanticChunk (sents : List (Nat × Nat)) (sims : List ℚ) (th : ℚ) (m : Int) :
    List (Nat × Nat) :=
  (semLoopGo sents sims th m sims.length 0 [sents.getD 0 (0, 0)]).1

/-- The per-gap split decisions of the same run. -/
def semanticSplits (sents : List (Nat × Nat)) (sims : List ℚ) (th : ℚ) (m : Int) :
    List Bool :=
  (semLoopGo sents sims th m sims.length 0 [sents.getD 0 (0, 0)]).2

/-- Valley as worded by the claim: s_i is less than or equal to both
    neighbors, with sentinel value 1 outside the range. -/
def specValley (sims : List ℚ) (i : Nat) : Prop :=
  sims.getD i 0 ≤ (if i = 0 then 1 else sims.getD (i - 1) 0) ∧
  sims.getD i 0 ≤ (if i + 1 < sims.length then sims.getD (i + 1) 0 else 1)

instance (sims : List ℚ) (i : Nat) : Decidable (specValley sims i) := by
  unfold specValley; infer_instance

/-- Start offset of the chunk being accumulated before gap i, written
    from the words of the claim: it moves to sentence i+1 exactly after
    a split at gap i. -/
def specChunkStart (sents : List (Nat × Nat)) (sims : List ℚ) (th : ℚ) (m : Int) : Nat → Nat
  | 0 => (sents.getD 0 (0, 0)).1
  | i + 1 =>
    if sims.getD i 0 < th ∧ specValley sims i ∧
        ((sents.getD i (0, 0)).2 : Int) - specChunkStart sents sims th m i ≥ m
    then (sents.getD (i + 1) (0, 0)).1
    else specChunkStart sents sims th m i

/-- The split condition as worded by the claim: similarity strictly
    below the threshold, a valley, and accumulated span (ending at
    sentence i) at least min_chunk_size. -/
def specSplit (sents : List (Nat × Nat)) (sims : List ℚ) (th : ℚ) (m : Int) (i : Nat) : Prop :=
  sims.getD i 0 < th ∧ specValley sims i ∧
    ((sents.getD i (0, 0)).2 : Int) - specChunkStart sents sims th m i ≥ m

instance (sents : List (Nat × Nat)) (sims : List ℚ) (th : ℚ) (m : Int) (i : Nat) :
    Decidable (specSplit sents sims th m i) := by
  unfold specSplit; infer_instance

theorem codeValley_iff_specValley (sims : List ℚ) (i : Nat) :
    codeValley sims i ↔ specValley sims i := by
  unfold codeValley specValley
  split_ifs <;> first | tauto | omega

theorem headD_append_of_ne_nil (l : List (Nat × Nat)) (x d : Nat × Nat) (h : l ≠ []) :
    (l ++ [x]).headD d = l.headD d := by
  cases l with
  | nil => exact absurd rfl h
  | cons a as => rfl

theorem getLastD_append_single (l : List (Nat × Nat)) (x d : Nat × Nat) :
    (l ++ [x]).getLastD d = x := by
  simp

theorem specChunkStart_succ (sents : List (Nat × Nat)) (sims : List ℚ) (th : ℚ) (m : Int)
    (i : Nat) :
    specChunkStart sents sims th m (i + 1) =
      if specSplit sents sims th m i then (sents.getD (i + 1) (0, 0)).1
      else specChunkStart sents sims th m i := rfl

theorem semLoopGo_splits (sents : List (Nat × Nat)) (sims : List ℚ) (th : ℚ) (m : Int) :
    ∀ (rem i : Nat) (current : List (Nat × Nat)),
      current ≠ [] →
      (current.headD (0, 0)).1 = specChunkStart sents sims th m i →
      (current.getLastD (0, 0)).2 = (sents.getD i (0, 0)).2 →
      (semLoopGo sents sims th m rem i current).2 =
        (List.range rem).map (fun j => decide (specSplit sents sims th m (i + j))) := by
  intro rem
  induction rem with
  | zero => intro i current _ _ _; rfl
  | succ rem ih =>
    intro i current hne hh hl
    have hiff : ((sims.getD i 0 < th ∧ codeValley sims i) ∧
        ((current.getLastD (0, 0)).2 : Int) - (current.headD (0, 0)).1 ≥ m) ↔
        specSplit sents sims th m i := by
      rw [hh, hl]
      unfold specSplit
      rw [codeValley_iff_specValley]
      tauto
    have hfun : ((fun j => decide (specSplit sents sims th m (i + j))) ∘ Nat.succ) =
        (fun j => decide (specSplit sents sims th m (i + 1 + j))) := by
      funext j
      show decide (specSplit sents sims th m (i + (j + 1))) = _
      have hq : i + (j + 1) = i + 1 + j := by omega
      rw [hq]
    have hrange : (List.range (rem + 1)).map
        (fun j => decide (specSplit sents sims th m (i + j))) =
        decide (specSplit sents sims th m i) ::
          (List.range rem).map (fun j => decide (specSplit sents sims th m (i + 1 + j))) := by
      rw [List.range_succ_eq_map, List.map_cons, List.map_map, hfun]
      simp only [Nat.add_zero]
    by_cases hsp : specSplit sents sims th m i
    · have hc := hiff.mpr hsp
      have hInv1 : (([sents.getD (i + 1) (0, 0)] : List (Nat × Nat)).headD (0, 0)).1 =
          specChunkStart sents sims th m (i + 1) := by
        rw [specChunkStart_succ, if_pos hsp]
        rfl
      simp only [semLoopGo]
      rw [if_pos hc]
      show true :: (semLoopGo sents sims th m rem (i + 1) [sents.getD (i + 1) (0, 0)]).2 = _
      rw [hrange, ih (i + 1) [sents.getD (i + 1) (0, 0)] (by simp) hInv1 rfl]
      simp [hsp]
    · have hc : ¬((sims.getD i 0 < th ∧ codeValley sims i) ∧
          ((current.getLastD (0, 0)).2 : Int) - (current.headD (0, 0)).1 ≥ m) :=
        fun hx => hsp (hiff.mp hx)
      have hInv2 : ((current ++ [sents.getD (i + 1) (0, 0)]).headD (0, 0)).1 =
          specChunkStart sents sims th m (i + 1) := by
        rw [headD_append_of_ne_nil current _ _ hne, hh, specChunkStart_succ, if_neg hsp]
      have hInv3 : ((current ++ [sents.getD (i + 1) (0, 0)]).getLastD (0, 0)).2 =
          (sents.getD (i + 1) (0, 0)).2 := by
        rw [getLastD_append_single]
      simp only [semLoopGo]
      rw [if_neg hc]
      show false :: (semLoopGo sents sims th m rem (i + 1)
          (current ++ [sents.getD (i + 1) (0, 0)])).2 = _
      rw [hrange, ih (i + 1) (current ++ [sents.getD (i + 1) (0, 0)]) (by simp) hInv2 hInv3]
      simp [hsp]

/-- C5: on a text with at least two sentences (one similarity per gap)
    the semantic chunker starts a new chunk after gap i exactly when the
    similarity is strictly below the threshold, the gap is a valley
    (with sentinel 1 outside the range), and the accumulated chunk span
    is at least min_chunk_size. -/
theorem c5_semantic_split_iff (sents : List (Nat × Nat)) (sims : List ℚ) (th : ℚ) (m : Int)
    (h2 : 2 ≤ sents.length) (hlen : sents.length = sims.length + 1) :
    semanticSplits sents sims th m =
      (List.range sims.length).map (fun i => decide (specSplit sents sims th m i)) := by
  unfold semanticSplits
  rw [semLoopGo_splits sents sims th m sims.length 0 [sents.getD 0 (0, 0)]
    (by simp) rfl rfl]
  simp

/-- C5 witness: three sentences with a valley below the threshold at
    the second gap. -/
theorem c5_semantic_split_iff_witness :
    semanticSplits [(0, 12), (13, 30), (31, 44)] [9/10, 2/10] (1/2) 10 =
      (List.range 2).map
        (fun i => decide (specSplit [(0, 12), (13, 30), (31, 44)] [9/10, 2/10] (1/2) 10 i)) :=
  c5_semantic_split_iff [(0, 12), (13, 30), (31, 44)] [9/10, 2/10] (1/2) 10
    (by decide) (by decide)

/- ## PipelineExecutor (src/backend/app/services/pipeline_executor.py)

   The executor is modelled as a deterministic transition system: nodes
   are ids, handlers are pure functions from gathered inputs to an
   Except value (an exception or an output).  The asyncio concurrency,
   the semaphore and wall-clock timestamps are outside the embedding;
   within one wave the source stores results and decrements in-degrees
   sequentially in wave order, which is what the fold below does.
   Progress values are rationals; the source computes
   (completed / total) * 100 in floating point. -/

inductive RunStatus
  | pending | running | completed | failed | cancelled
  deriving DecidableEq, Repr, Inhabited

/-- Association-list dictionary assignment with Python dict semantics:
    overwrite in place, append when absent. -/
def sdictSet {γ : Type} (l : List (String × γ)) (k : String) (v : γ) : List (String × γ) :=
  match l with
  | [] => [(k, v)]
  | p :: tl => if p.1 = k then (k, v) :: tl else p :: sdictSet tl k v

def sdictLookup {γ : Type} : List (String × γ) → String → Option γ
  | [], _ => none
  | p :: tl, k => if p.1 = k then some p.2 else sdictLookup tl k

/-- Adjacency list of _build_graph: targets of the edges leaving u, in
    edge order. -/
def buildAdj (edges : List (String × String)) (u : String) : List String :=
  (edges.filter (fun e => e.1 = u)).map Prod.snd

/-- Initial in-degrees of _build_graph: the number of edges entering v. -/
def initIndeg (edges : List (String × String)) (v : String) : Int :=
  ((edges.filter (fun e => e.2 = v)).length : Int)

/-- Decrement the in-degree of every neighbor of u, queueing each
    neighbor that reaches zero; shared verbatim by the cycle check and
    the execution loop in the source. -/
def decStep (adj : String → List String) (u : String) (indeg : String → Int)
    (cands : List String) : (String → Int) × List String :=
  (adj u).foldl
    (fun p nb =>
      ((fun v => if v = nb then p.1 v - 1 else p.1 v),
       if p.1 nb - 1 = 0 then p.2 ++ [nb] else p.2))
    (indeg, cands)

/-- The deque loop of _detect_cycle (Kahn traversal); returns the list
    of popped nodes in pop order. -/
def kahnLoop (adj : String → List String) : Nat → (String → Int) → List String → List String → List String
  | 0, _, _, processed => processed
  | fuel + 1, indeg, queue, processed =>
    match queue with
    | [] => processed
    | u :: rest =>
      let step := decStep adj u indeg []
      kahnLoop adj fuel step.1 (rest ++ step.2) (processed ++ [u])

/-- _detect_cycle: Kahn count differs from the node count. -/
def detectCycle (nodes : List String) (edges : List (String × String)) : Bool :=
  (kahnLoop (buildAdj edges) (nodes.length + edges.length + 1) (initIndeg edges)
      (nodes.filter (fun n => initIndeg edges n = 0)) []).length ≠ nodes.length

/-- Input gathering of _execute_node: one entry per distinct upstream
    source of an incoming edge, valued at that source node output if
    present (None otherwise). -/
def gatherInputs {β : Type} (edges : List (String × String)) (results : List (String × β))
    (nid : String) : List (String × Option β) :=
  edges.foldl
    (fun acc e => if e.2 = nid then sdictSet acc e.1 (sdictLookup results e.1) else acc) []

/-- Final state of one execution: status, last progress value, the
    results mapping, the processed nodes in completion order (each of
    which had its handler invoked), and the emitted progress values. -/
structure ExecOutcome (β : Type) where
  status : RunStatus
  progress : ℚ
  results : List (String × β)
  procd : List String
  trace : List ℚ
  deriving Repr

/-- Result of post-processing one wave: either the first stored
    exception aborts the run, or the wave completes with the updated
    in-degrees, results, processed list and next-wave candidates. -/
inductive WaveOut (β : Type)
  | fail (results : List (String × β)) (procd : List String)
  | next (indeg : String → Int) (results : List (String × β)) (procd : List String)
    (cands : List String)

/-- The per-wave result loop of execute: walk the wave outputs in wave
    order; an exception raises immediately; a success is stored, the
    node counts as completed, and its neighbors are decremented. -/
def processOutputs {β : Type} (adj : String → List String) :
    List (String × Except String β) → (String → Int) → List (String × β) → List String →
      List String → WaveOut β
  | [], indeg, results, procd, cands => WaveOut.next indeg results procd cands
  | (_, Except.error _) :: _, _, results, procd, _ => WaveOut.fail results procd
  | (nid, Except.ok out) :: rest, indeg, results, procd, cands =>
    let step := decStep adj nid indeg cands
    processOutputs adj rest step.1 (sdictSet results nid out) (procd ++ [nid]) step.2

/-- The wave loop of execute: emit the current wave, run every handler
    of the wave, post-process, checkpoint, update progress and emit;
    when the ready queue empties the run is COMPLETED.  The fuel bounds
    the number of waves; nodes.length + 1 always suffices because every
    wave completes at least one node. -/
def execLoop {β : Type} (nodes : List String) (edges : List (String × String))
    (handler : String → List (String × Option β) → Except String β) :
    Nat → (String → Int) → List String → List (String × β) → List String → List ℚ → ℚ →
      ExecOutcome β
  | 0, _, _, results, procd, trace, progress =>
    { status := .running, progress := progress, results := results, procd := procd,
      trace := trace }
  | fuel + 1, indeg, ready, results, procd, trace, progress =>
    match ready with
    | [] =>
      { status := .completed, progress := progress, results := results, procd := procd,
        trace := trace ++ [progress] }
    | _ :: _ =>
      match processOutputs (buildAdj edges)
          (ready.map (fun nid => (nid, handler nid (gatherInputs edges results nid))))
          indeg results procd [] with
      | WaveOut.fail results2 procd2 =>
        { status := .failed, progress := progress, results := results2, procd := procd2,
          trace := trace ++ [progress, progress] }
      | WaveOut.next indeg2 results2 procd2 cands =>
        execLoop nodes edges handler fuel indeg2 cands results2 procd2
          (trace ++ [progress, (procd2.length : ℚ) / (nodes.length : ℚ) * 100])
          ((procd2.length : ℚ) / (nodes.length : ℚ) * 100)

/-- PipelineExecutor.execute: raise before entering the run when the
    cycle check fails (status remains PENDING), otherwise emit RUNNING
    with progress 0 and drain the ready queue in waves. -/
def executeRun {β : Type} (nodes : List String) (edges : List (String × String))
    (handler : String → List (String × Option β) → Except String β) : ExecOutcome β :=
  if detectCycle nodes edges then
    { status := .pending, progress := 0, results := [], procd := [], trace := [] }
  else
    execLoop nodes edges handler (nodes.length + 1) (initIndeg edges)
      (nodes.filter (fun n => initIndeg edges n = 0)) [] [] [0] 0

/-- _save_checkpoint: the Results mapping keyed by run id; the JSON
    serialization is modelled as the mapping itself. -/
def saveCheckpoint {β : Type} (out : ExecOutcome β) : List (String × β) :=
  out.results

/-- Well-formed graph input: unique node ids, no duplicate edges, edge
    endpoints resolve to nodes. -/
structure GraphWF (nodes : List String) (edges : List (String × String)) : Prop where
  nodesNodup : nodes.Nodup
  edgesNodup : edges.Nodup
  srcMem : ∀ e ∈ edges, e.1 ∈ nodes
  tgtMem : ∀ e ∈ edges, e.2 ∈ nodes

/- ### Kahn invariant machinery for the executor proofs -/

/-- Number of edges into v whose source has not yet been processed; the
    in-degree counters of both source loops track exactly this. -/
def inCount (edges : List (String × String)) (processed : List String) (v : String) : Nat :=
  edges.countP (fun e => decide (e.2 = v) && decide (e.1 ∉ processed))

/-- A processing order is schedule-valid when every node is processed
    only after all sources of its incoming edges (pre is the already
    fixed prefix). -/
def ValidSchedAux (edges : List (String × String)) : List String → List String → Prop
  | _, [] => True
  | pre, v :: rest =>
    (∀ e ∈ edges, e.2 = v → e.1 ∈ pre) ∧ ValidSchedAux edges (pre ++ [v]) rest

theorem inCount_zero_iff (edges : List (String × String)) (P : List String) (v : String) :
    inCount edges P v = 0 ↔ ∀ e ∈ edges, e.2 = v → e.1 ∈ P := by
  unfold inCount
  rw [List.countP_eq_zero]
  constructor
  · intro h e he hv
    have := h e he
    simp only [Bool.and_eq_true, decide_eq_true_eq, not_and] at this
    by_contra hmem
    exact (this hv) hmem
  · intro h e he
    simp only [Bool.and_eq_true, decide_eq_true_eq, not_and]
    intro hv
    simp [h e he hv]

theorem inCount_pos (edges : List (String × String)) (P : List String) (u v : String)
    (he : (u, v) ∈ edges) (hu : u ∉ P) : 0 < inCount edges P v := by
  unfold inCount
  rw [List.countP_pos_iff]
  exact ⟨(u, v), he, by simp [hu]⟩

theorem inCount_append_single (edges : List (String × String)) (P : List String)
    (u v : String) (hu : u ∉ P) (hnd : edges.Nodup) :
    inCount edges P v =
      inCount edges (P ++ [u]) v + (if (u, v) ∈ edges then 1 else 0) := by
  induction edges with
  | nil => simp [inCount]
  | cons e es ih =>
    rw [List.nodup_cons] at hnd
    have ihe := ih hnd.2
    unfold inCount at ihe ⊢
    simp only [List.countP_cons]
    by_cases hev : e = (u, v)
    · subst hev
      have h1 : (if (decide ((u, v).2 = v) && decide ((u, v).1 ∉ P)) = true
          then 1 else 0) = 1 := by simp [hu]
      have h2 : (if (decide ((u, v).2 = v) && decide ((u, v).1 ∉ P ++ [u])) = true
          then 1 else 0) = 0 := by simp
      rw [h1, h2]
      rw [if_pos (List.mem_cons_self (u, v) es)]
      rw [if_neg hnd.1] at ihe
      omega
    · have hsame : (decide (e.2 = v) && decide (e.1 ∉ P ++ [u])) =
          (decide (e.2 = v) && decide (e.1 ∉ P)) := by
        by_cases h2v : e.2 = v
        · by_cases h1u : e.1 = u
          · exact absurd (Prod.ext h1u h2v) hev
          · simp [h2v, h1u]
        · simp [h2v]
      have hmem : ((u, v) ∈ e :: es) ↔ ((u, v) ∈ es) := by
        constructor
        · intro h
          rcases List.mem_cons.mp h with h | h
          · exact absurd h.symm hev
          · exact h
        · exact List.mem_cons_of_mem e
      rw [hsame]
      by_cases hm2 : (u, v) ∈ es
      · rw [if_pos (hmem.mpr hm2)]
        rw [if_pos hm2] at ihe
        omega
      · rw [if_neg (fun hx => hm2 (hmem.mp hx))]
        rw [if_neg hm2] at ihe
        omega

theorem validSchedAux_append (edges : List (String × String)) :
    ∀ (P pre : List String) (u : String),
      ValidSchedAux edges pre (P ++ [u]) ↔
        (ValidSchedAux edges pre P ∧ ∀ e ∈ edges, e.2 = u → e.1 ∈ pre ++ P) := by
  intro P
  induction P with
  | nil =>
    intro pre u
    show ((∀ e ∈ edges, e.2 = u → e.1 ∈ pre) ∧ True) ↔ _
    simp [ValidSchedAux]
  | cons v P ih =>
    intro pre u
    show ((∀ e ∈ edges, e.2 = v → e.1 ∈ pre) ∧ ValidSchedAux edges (pre ++ [v]) (P ++ [u])) ↔ _
    rw [ih (pre ++ [v]) u]
    have hl : pre ++ [v] ++ P = pre ++ (v :: P) := by simp
    rw [hl]
    show _ ↔ ((_ ∧ ValidSchedAux edges (pre ++ [v]) P) ∧ _)
    tauto

theorem validSchedAux_mem_sources (edges : List (String × String)) :
    ∀ (P pre : List String), ValidSchedAux edges pre P →
      ∀ v ∈ P, ∀ e ∈ edges, e.2 = v → e.1 ∈ pre ++ P := by
  intro P
  induction P with
  | nil => intro pre _ v hv; exact absurd hv (List.not_mem_nil v)
  | cons w P ih =>
    intro pre hs v hv e he hev
    rcases List.mem_cons.mp hv with hv | hv
    · subst hv
      have := hs.1 e he hev
      exact List.mem_append_left _ this
    · have := ih (pre ++ [w]) hs.2 v hv e he hev
      rw [List.append_assoc] at this
      simpa using this

theorem schedSubsetOfMax (nodes : List String) (edges : List (String × String))
    (P2 : List String)
    (hmax : ∀ v ∈ nodes, v ∉ P2 → ∃ e ∈ edges, e.2 = v ∧ e.1 ∉ P2) :
    ∀ (P1 pre : List String), (∀ x ∈ pre, x ∈ P2) → ValidSchedAux edges pre P1 →
      (∀ v ∈ P1, v ∈ nodes) → ∀ v ∈ P1, v ∈ P2 := by
  intro P1
  induction P1 with
  | nil => intro pre _ _ _ v hv; exact absurd hv (List.not_mem_nil v)
  | cons w P ih =>
    intro pre hpre hs hsub v hv
    have hw : w ∈ P2 := by
      by_contra hw2
      obtain ⟨e, he, hev, hesrc⟩ := hmax w (hsub w (List.mem_cons_self w P)) hw2
      exact hesrc (hpre e.1 (hs.1 e he hev))
    rcases List.mem_cons.mp hv with hv | hv
    · exact hv ▸ hw
    · refine ih (pre ++ [w]) ?_ hs.2 (fun x hx => hsub x (List.mem_cons_of_mem w hx)) v hv
      intro x hx
      rcases List.mem_append.mp hx with hx | hx
      · exact hpre x hx
      · rw [List.mem_singleton.mp hx]; exact hw

theorem mem_buildAdj (edges : List (String × String)) (u v : String) :
    v ∈ buildAdj edges u ↔ (u, v) ∈ edges := by
  unfold buildAdj
  rw [List.mem_map]
  constructor
  · rintro ⟨e, he, hv⟩
    rw [List.mem_filter] at he
    have he1 : e.1 = u := by simpa using he.2
    have : e = (u, v) := Prod.ext he1 hv
    exact this ▸ he.1
  · intro h
    exact ⟨(u, v), List.mem_filter.mpr ⟨h, by simp⟩, rfl⟩

theorem buildAdj_nodup (edges : List (String × String)) (hnd : edges.Nodup) (u : String) :
    (buildAdj edges u).Nodup := by
  unfold buildAdj
  refine (hnd.filter _).map_on ?_
  intro x hx y hy hxy
  rw [List.mem_filter] at hx hy
  have hx1 : x.1 = u := by simpa using hx.2
  have hy1 : y.1 = u := by simpa using hy.2
  exact Prod.ext (hx1.trans hy1.symm) hxy

theorem decStep_foldl_spec :
    ∀ (l : List String), l.Nodup → ∀ (ind : String → Int) (cs : List String),
      (∀ v, (l.foldl
          (fun (p : (String → Int) × List String) nb =>
            ((fun v => if v = nb then p.1 v - 1 else p.1 v),
             if p.1 nb - 1 = 0 then p.2 ++ [nb] else p.2))
          (ind, cs)).1 v = ind v - (if v ∈ l then 1 else 0)) ∧
      (l.foldl
          (fun (p : (String → Int) × List String) nb =>
            ((fun v => if v = nb then p.1 v - 1 else p.1 v),
             if p.1 nb - 1 = 0 then p.2 ++ [nb] else p.2))
          (ind, cs)).2 = cs ++ l.filter (fun nb => decide (ind nb - 1 = 0)) := by
  intro l
  induction l with
  | nil => intro _ ind cs; exact ⟨fun v => by simp, by simp⟩
  | cons nb l ih =>
    intro hnd ind cs
    rw [List.nodup_cons] at hnd
    rw [List.foldl_cons]
    have ihspec := ih hnd.2 (fun v => if v = nb then ind v - 1 else ind v)
      (if ind nb - 1 = 0 then cs ++ [nb] else cs)
    constructor
    · intro v
      rw [ihspec.1 v]
      by_cases hv : v = nb
      · subst hv
        rw [if_pos rfl, if_neg hnd.1, if_pos (List.mem_cons_self v l)]
        omega
      · rw [if_neg hv]
        have : (v ∈ nb :: l) ↔ (v ∈ l) := by
          constructor
          · intro h; rcases List.mem_cons.mp h with h | h
            · exact absurd h hv
            · exact h
          · exact List.mem_cons_of_mem nb
        by_cases hvl : v ∈ l
        · rw [if_pos hvl, if_pos (this.mpr hvl)]
        · rw [if_neg hvl, if_neg (fun hx => hvl (this.mp hx))]
    · rw [ihspec.2]
      have hcongr : l.filter (fun x => decide ((if x = nb then ind x - 1 else ind x) - 1 = 0)) =
          l.filter (fun x => decide (ind x - 1 = 0)) := by
        refine List.filter_congr ?_
        intro x hx
        rw [if_neg (fun hvx => hnd.1 (show nb ∈ l by rw [← hvx]; exact hx))]
      rw [hcongr, List.filter_cons]
      by_cases hz : ind nb - 1 = 0
      · rw [if_pos hz, if_pos (by simp [hz])]
        simp
      · rw [if_neg hz, if_neg (by simp [hz])]

theorem decStep_fst (adj : String → List String) (u : String) (indeg : String → Int)
    (cands : List String) (h : (adj u).Nodup) (v : String) :
    (decStep adj u indeg cands).1 v = indeg v - (if v ∈ adj u then 1 else 0) :=
  (decStep_foldl_spec (adj u) h indeg cands).1 v

theorem decStep_snd (adj : String → List String) (u : String) (indeg : String → Int)
    (cands : List String) (h : (adj u).Nodup) :
    (decStep adj u indeg cands).2 =
      cands ++ (adj u).filter (fun nb => decide (indeg nb - 1 = 0)) :=
  (decStep_foldl_spec (adj u) h indeg cands).2

/-- The running invariant shared by the cycle check and the execution
    loop: processed is a valid schedule of distinct nodes, the counters
    equal the number of in-edges from unprocessed sources, and the
    frontier holds exactly the unprocessed nodes of counter zero. -/
structure KahnInv (nodes : List String) (edges : List (String × String))
    (indeg : String → Int) (frontier processed : List String) : Prop where
  procSub : ∀ v ∈ processed, v ∈ nodes
  procNodup : processed.Nodup
  frontSub : ∀ v ∈ frontier, v ∈ nodes
  frontNodup : frontier.Nodup
  frontDisj : ∀ v ∈ frontier, v ∉ processed
  indegEq : ∀ v, indeg v = (inCount edges processed v : Int)
  zeroIff : ∀ v ∈ nodes, v ∉ processed → (indeg v = 0 ↔ v ∈ frontier)
  sched : ValidSchedAux edges [] processed

/-- Processing one frontier node u preserves the Kahn invariant: u is
    appended to the schedule, its neighbors are decremented, and the new
    frontier is the old one (without u) extended by the neighbors whose
    counter reached zero. -/
theorem stepInv (nodes : List String) (edges : List (String × String)) (wf : GraphWF nodes edges)
    (indeg : String → Int) (u : String) (tail processed cands : List String)
    (inv : KahnInv nodes edges indeg (u :: tail) processed) :
    (decStep (buildAdj edges) u indeg cands).2 =
        cands ++ (buildAdj edges u).filter (fun nb => decide (indeg nb - 1 = 0)) ∧
    KahnInv nodes edges (decStep (buildAdj edges) u indeg cands).1
      (tail ++ (buildAdj edges u).filter (fun nb => decide (indeg nb - 1 = 0)))
      (processed ++ [u]) := by
  have hAnd : (buildAdj edges u).Nodup := buildAdj_nodup edges wf.edgesNodup u
  have hedge : ∀ v, v ∈ buildAdj edges u ↔ (u, v) ∈ edges := fun v => mem_buildAdj edges u v
  have huF : u ∈ u :: tail := List.mem_cons_self u tail
  have huN : u ∈ nodes := inv.frontSub u huF
  have huP : u ∉ processed := inv.frontDisj u huF
  have hu0 : indeg u = 0 := (inv.zeroIff u huN huP).mpr huF
  have htailNodup : tail.Nodup := (List.nodup_cons.mp inv.frontNodup).2
  have huTail : u ∉ tail := (List.nodup_cons.mp inv.frontNodup).1
  have hfst : ∀ v, (decStep (buildAdj edges) u indeg cands).1 v =
      indeg v - (if v ∈ buildAdj edges u then 1 else 0) :=
    fun v => decStep_fst _ u indeg cands hAnd v
  have hsnd := decStep_snd (buildAdj edges) u indeg cands hAnd
  have hInU : inCount edges processed u = 0 := by
    have h1 := inv.indegEq u
    omega
  have hAnotP : ∀ v ∈ buildAdj edges u, v ∉ processed := by
    intro v hv hvP
    have hsrc := validSchedAux_mem_sources edges processed [] inv.sched v hvP (u, v)
        ((hedge v).mp hv) rfl
    rw [List.nil_append] at hsrc
    exact huP hsrc
  have hApos : ∀ v ∈ buildAdj edges u, 0 < inCount edges processed v := fun v hv =>
    inCount_pos edges processed u v ((hedge v).mp hv) huP
  have hAnotF : ∀ v ∈ buildAdj edges u, v ∉ u :: tail := by
    intro v hv hvF
    have hvN : v ∈ nodes := wf.tgtMem (u, v) ((hedge v).mp hv)
    have h0 : indeg v = 0 := (inv.zeroIff v hvN (hAnotP v hv)).mpr hvF
    have h1 := inv.indegEq v
    have h2 := hApos v hv
    omega
  have hAnotU : u ∉ buildAdj edges u := by
    intro hu
    have h1 := hApos u hu
    omega
  refine ⟨hsnd, ?_, ?_, ?_, ?_, ?_, ?_, ?_, ?_⟩
  · intro v hv
    rcases List.mem_append.mp hv with hv | hv
    · exact inv.procSub v hv
    · rw [List.mem_singleton.mp hv]; exact huN
  · rw [List.nodup_append]
    refine ⟨inv.procNodup, List.nodup_singleton u, ?_⟩
    intro a ha hau
    rw [List.mem_singleton] at hau
    exact huP (hau ▸ ha)
  · intro v hv
    rcases List.mem_append.mp hv with hv | hv
    · exact inv.frontSub v (List.mem_cons_of_mem u hv)
    · exact wf.tgtMem (u, v) ((hedge v).mp (List.mem_of_mem_filter hv))
  · rw [List.nodup_append]
    refine ⟨htailNodup, hAnd.filter _, ?_⟩
    intro a ha haf
    exact hAnotF a (List.mem_of_mem_filter haf) (List.mem_cons_of_mem u ha)
  · intro v hv
    rcases List.mem_append.mp hv with hv | hv
    · intro hvP
      rcases List.mem_append.mp hvP with hvP | hvP
      · exact inv.frontDisj v (List.mem_cons_of_mem u hv) hvP
      · rw [List.mem_singleton] at hvP
        exact huTail (hvP ▸ hv)
    · intro hvP
      have hvA : v ∈ buildAdj edges u := List.mem_of_mem_filter hv
      rcases List.mem_append.mp hvP with hvP | hvP
      · exact hAnotP v hvA hvP
      · rw [List.mem_singleton] at hvP
        exact hAnotU (hvP ▸ hvA)
  · intro v
    rw [hfst v]
    have hcnt := inCount_append_single edges processed u v huP wf.edgesNodup
    have hite : (if v ∈ buildAdj edges u then (1 : Int) else 0) =
        (if (u, v) ∈ edges then 1 else 0) := by
      by_cases h : v ∈ buildAdj edges u
      · rw [if_pos h, if_pos ((hedge v).mp h)]
      · rw [if_neg h, if_neg (fun hx => h ((hedge v).mpr hx))]
    rw [inv.indegEq v, hite]
    by_cases h : (u, v) ∈ edges
    · rw [if_pos h]
      rw [if_pos h] at hcnt
      omega
    · rw [if_neg h]
      rw [if_neg h] at hcnt
      omega
  · intro v hvN hvP
    have hvP1 : v ∉ processed := fun h => hvP (List.mem_append_left _ h)
    have hvU : v ≠ u := fun h =>
      hvP (List.mem_append_right _ (by rw [h]; exact List.mem_singleton_self u))
    rw [hfst v]
    by_cases hvA : v ∈ buildAdj edges u
    · rw [if_pos hvA]
      have hpos := hApos v hvA
      have hIE := inv.indegEq v
      have hvnF : v ∉ u :: tail := hAnotF v hvA
      have hvnT : v ∉ tail := fun h => hvnF (List.mem_cons_of_mem u h)
      constructor
      · intro h0
        refine List.mem_append_right _ (List.mem_filter.mpr ⟨hvA, ?_⟩)
        simp only [decide_eq_true_eq]
        omega
      · intro hmem
        rcases List.mem_append.mp hmem with hmem | hmem
        · exact absurd hmem hvnT
        · have hmf := List.mem_filter.mp hmem
          simp only [decide_eq_true_eq] at hmf
          omega
    · rw [if_neg hvA]
      have hvnNews : v ∉ (buildAdj edges u).filter (fun nb => decide (indeg nb - 1 = 0)) :=
        fun h => hvA (List.mem_of_mem_filter h)
      rw [sub_zero]
      rw [inv.zeroIff v hvN hvP1]
      constructor
      · intro h
        rcases List.mem_cons.mp h with h | h
        · exact absurd h hvU
        · exact List.mem_append_left _ h
      · intro h
        rcases List.mem_append.mp h with h | h
        · exact List.mem_cons_of_mem u h
        · exact absurd h hvnNews
  · rw [validSchedAux_append]
    refine ⟨inv.sched, ?_⟩
    intro e he hev
    rw [List.nil_append]
    exact (inCount_zero_iff edges processed u).mp hInU e he hev

theorem invLenLe (nodes : List String) (edges : List (String × String))
    (indeg : String → Int) (frontier processed : List String)
    (inv : KahnInv nodes edges indeg frontier processed) :
    processed.length ≤ nodes.length :=
  (List.subperm_of_subset inv.procNodup (fun v hv => inv.procSub v hv)).length_le

theorem invLenLt (nodes : List String) (edges : List (String × String))
    (indeg : String → Int) (u : String) (tail processed : List String)
    (inv : KahnInv nodes edges indeg (u :: tail) processed) :
    processed.length < nodes.length := by
  have huF : u ∈ u :: tail := List.mem_cons_self u tail
  have hnd : (processed ++ [u]).Nodup := by
    rw [List.nodup_append]
    refine ⟨inv.procNodup, List.nodup_singleton u, ?_⟩
    intro a ha hau
    rw [List.mem_singleton] at hau
    exact inv.frontDisj u huF (hau ▸ ha)
  have hsub : ∀ v ∈ processed ++ [u], v ∈ nodes := by
    intro v hv
    rcases List.mem_append.mp hv with hv | hv
    · exact inv.procSub v hv
    · rw [List.mem_singleton.mp hv]; exact inv.frontSub u huF
  have := (List.subperm_of_subset hnd (fun v hv => hsub v hv)).length_le
  rw [List.length_append] at this
  simp at this
  omega

/-- The invariant holds at the start: counters are the edge in-degrees
    and the frontier is the set of zero in-degree nodes. -/
theorem initInv (nodes : List String) (edges : List (String × String))
    (wf : GraphWF nodes edges) :
    KahnInv nodes edges (initIndeg edges)
      (nodes.filter (fun n => decide (initIndeg edges n = 0))) [] := by
  refine ⟨?_, List.nodup_nil, ?_, wf.nodesNodup.filter _, ?_, ?_, ?_, trivial⟩
  · intro v hv; exact absurd hv (List.not_mem_nil v)
  · intro v hv; exact List.mem_of_mem_filter hv
  · intro v _; exact List.not_mem_nil v
  · intro v
    unfold initIndeg inCount
    rw [List.countP_eq_length_filter]
    have hsame : List.filter (fun e => decide (e.2 = v) && decide (e.1 ∉ ([] : List String)))
        edges = List.filter (fun e => decide (e.2 = v)) edges :=
      List.filter_congr (fun e _ => by simp)
    rw [hsame]
  · intro v hvN _
    rw [List.mem_filter]
    constructor
    · intro h0
      exact ⟨hvN, by simp [h0]⟩
    · intro h
      simpa using h.2

/-- The processed list of the Kahn deque loop is a schedule-valid,
    duplicate-free node list that is maximal: any node left out still
    has an incoming edge from outside the list. -/
theorem kahnLoop_spec (nodes : List String) (edges : List (String × String))
    (wf : GraphWF nodes edges) :
    ∀ (fuel : Nat) (indeg : String → Int) (queue processed : List String),
      KahnInv nodes edges indeg queue processed →
      nodes.length - processed.length < fuel →
      ((∀ v ∈ kahnLoop (buildAdj edges) fuel indeg queue processed, v ∈ nodes) ∧
       (kahnLoop (buildAdj edges) fuel indeg queue processed).Nodup ∧
       ValidSchedAux edges [] (kahnLoop (buildAdj edges) fuel indeg queue processed) ∧
       (∀ v ∈ nodes, v ∉ kahnLoop (buildAdj edges) fuel indeg queue processed →
         ∃ e ∈ edges, e.2 = v ∧ e.1 ∉ kahnLoop (buildAdj edges) fuel indeg queue processed)) := by
  intro fuel
  induction fuel with
  | zero => intro indeg queue processed _ hfuel; omega
  | succ fuel ih =>
    intro indeg queue processed inv hfuel
    cases queue with
    | nil =>
      show (∀ v ∈ processed, v ∈ nodes) ∧ processed.Nodup ∧ ValidSchedAux edges [] processed ∧ _
      refine ⟨inv.procSub, inv.procNodup, inv.sched, ?_⟩
      intro v hvN hvP
      have h0 : ¬(indeg v = 0) := fun h =>
        absurd ((inv.zeroIff v hvN hvP).mp h) (List.not_mem_nil v)
      have hIE := inv.indegEq v
      have hcnt : inCount edges processed v ≠ 0 := by omega
      have hne := (not_iff_not.mpr (inCount_zero_iff edges processed v)).mp hcnt
      push_neg at hne
      obtain ⟨e, he, hev, hsrc⟩ := hne
      exact ⟨e, he, hev, hsrc⟩
    | cons u rest =>
      obtain ⟨hsnd, inv2⟩ := stepInv nodes edges wf indeg u rest processed [] inv
      have hloopeq : kahnLoop (buildAdj edges) (fuel + 1) indeg (u :: rest) processed =
          kahnLoop (buildAdj edges) fuel (decStep (buildAdj edges) u indeg []).1
            (rest ++ (decStep (buildAdj edges) u indeg []).2) (processed ++ [u]) := rfl
      rw [hloopeq]
      have hre : rest ++ (decStep (buildAdj edges) u indeg []).2 =
          rest ++ (buildAdj edges u).filter (fun nb => decide (indeg nb - 1 = 0)) := by
        rw [hsnd, List.nil_append]
      rw [hre]
      have hlt := invLenLt nodes edges indeg u rest processed inv
      refine ih (decStep (buildAdj edges) u indeg []).1 _ (processed ++ [u]) inv2 ?_
      rw [List.length_append]
      simp only [List.length_singleton]
      omega

theorem processOutputs_next_spec {β : Type} (nodes : List String)
    (edges : List (String × String)) (wf : GraphWF nodes edges) :
    ∀ (outputs : List (String × Except String β)) (indeg : String → Int)
      (results : List (String × β)) (procd cands : List String),
      KahnInv nodes edges indeg (outputs.map Prod.fst ++ cands) procd →
      ∀ (indeg2 : String → Int) (results2 : List (String × β)) (procd2 cands2 : List String),
        processOutputs (buildAdj edges) outputs indeg results procd cands =
          WaveOut.next indeg2 results2 procd2 cands2 →
        KahnInv nodes edges indeg2 cands2 procd2 ∧ procd2 = procd ++ outputs.map Prod.fst := by
  intro outputs
  induction outputs with
  | nil =>
    intro indeg results procd cands inv indeg2 results2 procd2 cands2 heq
    injection heq with h1 h2 h3 h4
    subst h1; subst h2; subst h3; subst h4
    exact ⟨by simpa using inv, by simp⟩
  | cons ho rest ih =>
    intro indeg results procd cands inv indeg2 results2 procd2 cands2 heq
    obtain ⟨nid, out⟩ := ho
    cases out with
    | error e =>
      exact absurd heq (by simp [processOutputs])
    | ok b =>
      have hfr : (((nid, Except.ok b) :: rest : List (String × Except String β)).map Prod.fst
          ++ cands) = nid :: (rest.map Prod.fst ++ cands) := by simp
      rw [hfr] at inv
      obtain ⟨hsnd, inv2⟩ :=
        stepInv nodes edges wf indeg nid (rest.map Prod.fst ++ cands) procd cands inv
      have heq2 : processOutputs (buildAdj edges) rest
          (decStep (buildAdj edges) nid indeg cands).1 (sdictSet results nid b)
          (procd ++ [nid]) (decStep (buildAdj edges) nid indeg cands).2 =
          WaveOut.next indeg2 results2 procd2 cands2 := heq
      have hfr2 : rest.map Prod.fst ++ (decStep (buildAdj edges) nid indeg cands).2 =
          (rest.map Prod.fst ++ cands) ++
            (buildAdj edges nid).filter (fun nb => decide (indeg nb - 1 = 0)) := by
        rw [hsnd, ← List.append_assoc]
      have inv3 : KahnInv nodes edges (decStep (buildAdj edges) nid indeg cands).1
          (rest.map Prod.fst ++ (decStep (buildAdj edges) nid indeg cands).2)
          (procd ++ [nid]) := by
        rw [hfr2]; exact inv2
      obtain ⟨hinv4, hpr⟩ := ih _ _ _ _ inv3 indeg2 results2 procd2 cands2 heq2
      refine ⟨hinv4, ?_⟩
      rw [hpr]
      simp

theorem processOutputs_ok_next {β : Type} (adj : String → List String) :
    ∀ (outputs : List (String × Except String β)) (indeg : String → Int)
      (results : List (String × β)) (procd cands : List String),
      (∀ p ∈ outputs, ∃ b, p.2 = Except.ok b) →
      ∃ i2 r2 p2 c2, processOutputs adj outputs indeg results procd cands =
        WaveOut.next i2 r2 p2 c2 := by
  intro outputs
  induction outputs with
  | nil => intro indeg results procd cands _; exact ⟨indeg, results, procd, cands, rfl⟩
  | cons ho rest ih =>
    intro indeg results procd cands hok
    obtain ⟨nid, out⟩ := ho
    obtain ⟨b, hb⟩ := hok (nid, out) (List.mem_cons_self _ _)
    simp only at hb
    subst hb
    exact ih _ _ _ _ (fun p hp => hok p (List.mem_cons_of_mem _ hp))

theorem progressVal_nonneg (len n : Nat) : 0 ≤ (len : ℚ) / (n : ℚ) * 100 := by
  positivity

theorem progressVal_le_100 (len n : Nat) (h : len ≤ n) (hn : 0 < n) :
    (len : ℚ) / (n : ℚ) * 100 ≤ 100 := by
  have hnq : (0 : ℚ) < (n : ℚ) := by exact_mod_cast hn
  have h1 : (len : ℚ) / (n : ℚ) ≤ 1 := by
    rw [div_le_one hnq]
    exact_mod_cast h
  nlinarith

theorem progressVal_lt_100 (len n : Nat) (h : len < n) (hn : 0 < n) :
    (len : ℚ) / (n : ℚ) * 100 < 100 := by
  have hnq : (0 : ℚ) < (n : ℚ) := by exact_mod_cast hn
  have h1 : (len : ℚ) / (n : ℚ) < 1 := by
    rw [div_lt_one hnq]
    exact_mod_cast h
  nlinarith

theorem progressVal_mono (len1 len2 n : Nat) (h : len1 ≤ len2) (hn : 0 < n) :
    (len1 : ℚ) / (n : ℚ) * 100 ≤ (len2 : ℚ) / (n : ℚ) * 100 := by
  have hnq : (0 : ℚ) < (n : ℚ) := by exact_mod_cast hn
  have h1 : (len1 : ℚ) ≤ (len2 : ℚ) := by exact_mod_cast h
  have h2 : (len1 : ℚ) / (n : ℚ) ≤ (len2 : ℚ) / (n : ℚ) := by gcongr
  nlinarith

theorem getLast?_append_pair (l : List ℚ) (a b : ℚ) :
    (l ++ [a, b]).getLast? = some b := by
  rw [List.getLast?_append_of_ne_nil l (by simp)]
  rfl

theorem getLast?_append_one (l : List ℚ) (a : ℚ) :
    (l ++ [a]).getLast? = some a := by
  rw [List.getLast?_append_of_ne_nil l (by simp)]
  rfl

/-- The main loop lemma: under the Kahn invariant the wave loop emits a
    monotone progress trace bounded by [0, 100], terminates in COMPLETED
    or FAILED, a COMPLETED exit carries a maximal processed list and the
    matching progress, a FAILED exit has progress strictly below 100,
    and with never-failing handlers the run always completes. -/
theorem execLoop_spec {β : Type} (nodes : List String) (edges : List (String × String))
    (wf : GraphWF nodes edges)
    (handler : String → List (String × Option β) → Except String β) :
    ∀ (fuel : Nat) (indeg : String → Int) (ready : List String)
      (results : List (String × β)) (procd : List String) (trace : List ℚ) (progress : ℚ),
      KahnInv nodes edges indeg ready procd →
      progress = (procd.length : ℚ) / (nodes.length : ℚ) * 100 →
      nodes.length - procd.length < fuel →
      List.Chain' (· ≤ ·) trace →
      (∀ x ∈ trace.getLast?, x ≤ progress) →
      (∀ x ∈ trace, 0 ≤ x ∧ x ≤ 100) →
      0 ≤ progress → progress ≤ 100 →
      (List.Chain' (· ≤ ·)
          (execLoop nodes edges handler fuel indeg ready results procd trace progress).trace ∧
       (∀ x ∈ (execLoop nodes edges handler fuel indeg ready results procd trace progress).trace,
          0 ≤ x ∧ x ≤ 100) ∧
       ((execLoop nodes edges handler fuel indeg ready results procd trace progress).status =
            RunStatus.completed ∨
        (execLoop nodes edges handler fuel indeg ready results procd trace progress).status =
            RunStatus.failed) ∧
       ((execLoop nodes edges handler fuel indeg ready results procd trace progress).status =
            RunStatus.completed →
         (execLoop nodes edges handler fuel indeg ready results procd trace progress).progress =
           (((execLoop nodes edges handler fuel indeg ready results procd trace
                progress).procd.length : ℚ) / (nodes.length : ℚ) * 100) ∧
         (execLoop nodes edges handler fuel indeg ready results procd trace progress).procd.Nodup ∧
         (∀ v ∈ (execLoop nodes edges handler fuel indeg ready results procd trace
              progress).procd, v ∈ nodes) ∧
         (∀ v ∈ nodes,
            v ∉ (execLoop nodes edges handler fuel indeg ready results procd trace
                progress).procd →
            ∃ e ∈ edges, e.2 = v ∧
              e.1 ∉ (execLoop nodes edges handler fuel indeg ready results procd trace
                  progress).procd)) ∧
       ((execLoop nodes edges handler fuel indeg ready results procd trace progress).status =
            RunStatus.failed →
         (execLoop nodes edges handler fuel indeg ready results procd trace progress).progress <
           100) ∧
       ((∀ nid ∈ nodes, ∀ inp, ∃ b, handler nid inp = Except.ok b) →
         (execLoop nodes edges handler fuel indeg ready results procd trace progress).status =
           RunStatus.completed)) := by
  intro fuel
  induction fuel with
  | zero => intro indeg ready results procd trace progress _ _ hfuel _ _ _ _ _; omega
  | succ fuel ih =>
    intro indeg ready results procd trace progress inv hprog hfuel htr hlast hbnd hp0 hp100
    cases ready with
    | nil =>
      have hout : execLoop nodes edges handler (fuel + 1) indeg [] results procd trace progress =
          { status := .completed, progress := progress, results := results, procd := procd,
            trace := trace ++ [progress] } := rfl
      rw [hout]
      refine ⟨?_, ?_, Or.inl rfl, ?_, ?_, fun _ => rfl⟩
      · refine List.Chain'.append htr (List.chain'_singleton progress) ?_
        intro x hx y hy
        simp only [List.head?_cons, Option.mem_some_iff] at hy
        rw [← hy]
        exact hlast x hx
      · intro x hx
        rcases List.mem_append.mp hx with hx | hx
        · exact hbnd x hx
        · rw [List.mem_singleton.mp hx]
          exact ⟨hp0, hp100⟩
      · intro _
        refine ⟨hprog, inv.procNodup, inv.procSub, ?_⟩
        intro v hvN hvP
        have h0 : ¬(indeg v = 0) := fun h =>
          absurd ((inv.zeroIff v hvN hvP).mp h) (List.not_mem_nil v)
        have hIE := inv.indegEq v
        have hcnt : inCount edges procd v ≠ 0 := by omega
        have hne := (not_iff_not.mpr (inCount_zero_iff edges procd v)).mp hcnt
        push_neg at hne
        exact hne
      · intro h
        simp at h
    | cons u tail =>
      have houtfst : ((u :: tail).map
          (fun nid => (nid, handler nid (gatherInputs edges results nid)))).map Prod.fst =
          u :: tail := by
        rw [List.map_map]
        exact List.map_id (u :: tail)
      have inv' : KahnInv nodes edges indeg
          (((u :: tail).map
            (fun nid => (nid, handler nid (gatherInputs edges results nid)))).map Prod.fst ++ [])
          procd := by
        rw [houtfst, List.append_nil]
        exact inv
      have hun : u ∈ nodes := inv.frontSub u (List.mem_cons_self u tail)
      have hn : 0 < nodes.length := List.length_pos.mpr (List.ne_nil_of_mem hun)
      have hlenlt : procd.length < nodes.length := invLenLt nodes edges indeg u tail procd inv
      cases hpo : processOutputs (buildAdj edges)
          ((u :: tail).map (fun nid => (nid, handler nid (gatherInputs edges results nid))))
          indeg results procd [] with
      | fail results2 procd2 =>
        have hout : execLoop nodes edges handler (fuel + 1) indeg (u :: tail) results procd
            trace progress =
            { status := .failed, progress := progress, results := results2, procd := procd2,
              trace := trace ++ [progress, progress] } := by
          show (match processOutputs (buildAdj edges)
              ((u :: tail).map (fun nid => (nid, handler nid (gatherInputs edges results nid))))
              indeg results procd [] with
            | WaveOut.fail r2 p2 =>
              ({ status := .failed, progress := progress, results := r2, procd := p2,
                 trace := trace ++ [progress, progress] } : ExecOutcome β)
            | WaveOut.next i2 r2 p2 c2 =>
              execLoop nodes edges handler fuel i2 c2 r2 p2
                (trace ++ [progress, (p2.length : ℚ) / (nodes.length : ℚ) * 100])
                ((p2.length : ℚ) / (nodes.length : ℚ) * 100)) = _
          rw [hpo]
        rw [hout]
        refine ⟨?_, ?_, Or.inr rfl, ?_, ?_, ?_⟩
        · refine List.Chain'.append htr (List.chain'_pair.mpr (le_refl progress)) ?_
          intro x hx y hy
          simp only [List.head?_cons, Option.mem_some_iff] at hy
          rw [← hy]
          exact hlast x hx
        · intro x hx
          rcases List.mem_append.mp hx with hx | hx
          · exact hbnd x hx
          · rcases List.mem_cons.mp hx with hx | hx
            · rw [hx]; exact ⟨hp0, hp100⟩
            · rw [List.mem_singleton.mp hx]; exact ⟨hp0, hp100⟩
        · intro h
          simp at h
        · intro _
          rw [hprog]
          exact progressVal_lt_100 procd.length nodes.length hlenlt hn
        · intro hok
          exfalso
          have hallok : ∀ p ∈ (u :: tail).map
              (fun nid => (nid, handler nid (gatherInputs edges results nid))),
              ∃ b, p.2 = Except.ok b := by
            intro p hp
            rw [List.mem_map] at hp
            obtain ⟨nid, hnidmem, hpe⟩ := hp
            obtain ⟨b, hb⟩ := hok nid (inv.frontSub nid hnidmem) (gatherInputs edges results nid)
            exact ⟨b, by rw [← hpe]; exact hb⟩
          obtain ⟨i2, r2, p2, c2, hnext⟩ := processOutputs_ok_next (buildAdj edges)
            ((u :: tail).map (fun nid => (nid, handler nid (gatherInputs edges results nid))))
            indeg results procd [] hallok
          rw [hpo] at hnext
          exact WaveOut.noConfusion hnext
      | next indeg2 results2 procd2 cands =>
        obtain ⟨inv2, hpr⟩ := processOutputs_next_spec nodes edges wf
          ((u :: tail).map (fun nid => (nid, handler nid (gatherInputs edges results nid))))
          indeg results procd [] inv' indeg2 results2 procd2 cands hpo
        have hlen2 : procd2.length = procd.length + (tail.length + 1) := by
          rw [hpr, houtfst, List.length_append, List.length_cons]
        have hlen2le : procd2.length ≤ nodes.length := invLenLe nodes edges indeg2 cands procd2 inv2
        have hout : execLoop nodes edges handler (fuel + 1) indeg (u :: tail) results procd
            trace progress =
            execLoop nodes edges handler fuel indeg2 cands results2 procd2
              (trace ++ [progress, (procd2.length : ℚ) / (nodes.length : ℚ) * 100])
              ((procd2.length : ℚ) / (nodes.length : ℚ) * 100) := by
          show (match processOutputs (buildAdj edges)
              ((u :: tail).map (fun nid => (nid, handler nid (gatherInputs edges results nid))))
              indeg results procd [] with
            | WaveOut.fail r2 p2 =>
              ({ status := .failed, progress := progress, results := r2, procd := p2,
                 trace := trace ++ [progress, progress] } : ExecOutcome β)
            | WaveOut.next i2 r2 p2 c2 =>
              execLoop nodes edges handler fuel i2 c2 r2 p2
                (trace ++ [progress, (p2.length : ℚ) / (nodes.length : ℚ) * 100])
                ((p2.length : ℚ) / (nodes.length : ℚ) * 100)) = _
          rw [hpo]
        rw [hout]
        have hprogle : progress ≤ (procd2.length : ℚ) / (nodes.length : ℚ) * 100 := by
          rw [hprog]
          exact progressVal_mono procd.length procd2.length nodes.length (by omega) hn
        refine ih indeg2 cands results2 procd2
          (trace ++ [progress, (procd2.length : ℚ) / (nodes.length : ℚ) * 100])
          ((procd2.length : ℚ) / (nodes.length : ℚ) * 100) inv2 rfl (by omega) ?_ ?_ ?_
          (progressVal_nonneg procd2.length nodes.length)
          (progressVal_le_100 procd2.length nodes.length hlen2le hn)
        · refine List.Chain'.append htr (List.chain'_pair.mpr hprogle) ?_
          intro x hx y hy
          simp only [List.head?_cons, Option.mem_some_iff] at hy
          rw [← hy]
          exact hlast x hx
        · intro x hx
          rw [getLast?_append_pair] at hx
          rw [Option.mem_some_iff.mp hx]
        · intro x hx
          rcases List.mem_append.mp hx with hx | hx
          · exact hbnd x hx
          · rcases List.mem_cons.mp hx with hx | hx
            · rw [hx]; exact ⟨hp0, hp100⟩
            · rw [List.mem_singleton.mp hx]
              exact ⟨progressVal_nonneg procd2.length nodes.length,
                progressVal_le_100 procd2.length nodes.length hlen2le hn⟩

theorem subset_of_nodup_length (P nodes : List String) (hP : P.Nodup)
    (hsub : ∀ v ∈ P, v ∈ nodes) (hn : nodes.Nodup) (hlen : P.length = nodes.length) :
    ∀ v ∈ nodes, v ∈ P := by
  have hfs : P.toFinset ⊆ nodes.toFinset := by
    intro v hv
    rw [List.mem_toFinset] at hv ⊢
    exact hsub v hv
  have hcard : nodes.toFinset.card ≤ P.toFinset.card := by
    rw [List.toFinset_card_of_nodup hP, List.toFinset_card_of_nodup hn, hlen]
  have := Finset.eq_of_subset_of_card_le hfs hcard
  intro v hv
  rw [← List.mem_toFinset, this, List.mem_toFinset]
  exact hv

/-- When the cycle check passes, the deque traversal enumerates every
    node: a schedule-valid duplicate-free list covering all of nodes. -/
theorem detectCycle_false_full (nodes : List String) (edges : List (String × String))
    (wf : GraphWF nodes edges) (hcy : detectCycle nodes edges = false) :
    ValidSchedAux edges []
        (kahnLoop (buildAdj edges) (nodes.length + edges.length + 1) (initIndeg edges)
          (nodes.filter fun n => decide (initIndeg edges n = 0)) []) ∧
      (∀ v ∈ nodes, v ∈ kahnLoop (buildAdj edges) (nodes.length + edges.length + 1)
          (initIndeg edges) (nodes.filter fun n => decide (initIndeg edges n = 0)) []) ∧
      (∀ v ∈ kahnLoop (buildAdj edges) (nodes.length + edges.length + 1) (initIndeg edges)
          (nodes.filter fun n => decide (initIndeg edges n = 0)) [], v ∈ nodes) := by
  have hspec := kahnLoop_spec nodes edges wf (nodes.length + edges.length + 1) (initIndeg edges)
    (nodes.filter fun n => decide (initIndeg edges n = 0)) [] (initInv nodes edges wf)
    (by simp; omega)
  have hlen : (kahnLoop (buildAdj edges) (nodes.length + edges.length + 1) (initIndeg edges)
      (nodes.filter fun n => decide (initIndeg edges n = 0)) []).length = nodes.length := by
    unfold detectCycle at hcy
    simpa using hcy
  exact ⟨hspec.2.2.1,
    subset_of_nodup_length _ nodes hspec.2.1 hspec.1 wf.nodesNodup hlen, hspec.1⟩

/-- executeRun under a passing cycle check inherits all conclusions of
    the loop lemma. -/
theorem executeRun_spec {β : Type} (nodes : List String) (edges : List (String × String))
    (handler : String → List (String × Option β) → Except String β)
    (wf : GraphWF nodes edges) (hcy : detectCycle nodes edges = false) :
    (List.Chain' (· ≤ ·) (executeRun nodes edges handler).trace ∧
     (∀ x ∈ (executeRun nodes edges handler).trace, 0 ≤ x ∧ x ≤ 100) ∧
     ((executeRun nodes edges handler).status = RunStatus.completed ∨
      (executeRun nodes edges handler).status = RunStatus.failed) ∧
     ((executeRun nodes edges handler).status = RunStatus.completed →
       (executeRun nodes edges handler).progress =
         (((executeRun nodes edges handler).procd.length : ℚ) / (nodes.length : ℚ) * 100) ∧
       (executeRun nodes edges handler).procd.Nodup ∧
       (∀ v ∈ (executeRun nodes edges handler).procd, v ∈ nodes) ∧
       (∀ v ∈ nodes, v ∉ (executeRun nodes edges handler).procd →
         ∃ e ∈ edges, e.2 = v ∧ e.1 ∉ (executeRun nodes edges handler).procd)) ∧
     ((executeRun nodes edges handler).status = RunStatus.failed →
       (executeRun nodes edges handler).progress < 100) ∧
     ((∀ nid ∈ nodes, ∀ inp, ∃ b, handler nid inp = Except.ok b) →
       (executeRun nodes edges handler).status = RunStatus.completed)) := by
  have hrun : executeRun nodes edges handler =
      execLoop nodes edges handler (nodes.length + 1) (initIndeg edges)
        (nodes.filter (fun n => decide (initIndeg edges n = 0))) [] [] [0] 0 := by
    unfold executeRun
    rw [if_neg (by rw [hcy]; exact Bool.false_ne_true)]
  rw [hrun]
  exact execLoop_spec nodes edges wf handler (nodes.length + 1) (initIndeg edges)
    (nodes.filter (fun n => decide (initIndeg edges n = 0))) [] [] [0] 0
    (initInv nodes edges wf) (by simp) (by simp only [List.length_nil]; omega)
    (List.chain'_singleton 0) (by simp) (by norm_num) (le_refl 0) (by norm_num)

/-- A completed run has processed every node of the graph. -/
theorem executeRun_completed_full {β : Type} (nodes : List String)
    (edges : List (String × String))
    (handler : String → List (String × Option β) → Except String β)
    (wf : GraphWF nodes edges) (hcy : detectCycle nodes edges = false)
    (hc : (executeRun nodes edges handler).status = RunStatus.completed) :
    (∀ v ∈ nodes, v ∈ (executeRun nodes edges handler).procd) ∧
    (∀ v ∈ (executeRun nodes edges handler).procd, v ∈ nodes) ∧
    (executeRun nodes edges handler).procd.Nodup ∧
    (executeRun nodes edges handler).progress =
      (((executeRun nodes edges handler).procd.length : ℚ) / (nodes.length : ℚ) * 100) := by
  obtain ⟨-, -, -, hcomp, -, -⟩ := executeRun_spec nodes edges handler wf hcy
  obtain ⟨hprg, hnd, hsub, hmax⟩ := hcomp hc
  obtain ⟨hsched, hfull, hPsub⟩ := detectCycle_false_full nodes edges wf hcy
  have hPinProc := schedSubsetOfMax nodes edges (executeRun nodes edges handler).procd hmax
    (kahnLoop (buildAdj edges) (nodes.length + edges.length + 1) (initIndeg edges)
      (nodes.filter fun n => decide (initIndeg edges n = 0)) []) [] (by simp) hsched hPsub
  exact ⟨fun v hv => hPinProc v (hfull v hv), hsub, hnd, hprg⟩

/-- C2 (amended): over a well-formed graph the emitted progress sequence
    is monotone non-decreasing with every value in [0, 100] (the source
    stores completed/total scaled by 100), and for a nonempty graph the
    terminal progress is 100.0 exactly when the run status is COMPLETED
    (a cycle leaves the status PENDING at progress 0, a handler failure
    leaves progress strictly below 100). -/
theorem c2_progress_semantics {β : Type} (nodes : List String) (edges : List (String × String))
    (handler : String → List (String × Option β) → Except String β)
    (wf : GraphWF nodes edges) (hne : nodes ≠ []) :
    List.Chain' (· ≤ ·) (executeRun nodes edges handler).trace ∧
    (∀ x ∈ (executeRun nodes edges handler).trace, 0 ≤ x ∧ x ≤ 100) ∧
    ((executeRun nodes edges handler).status = RunStatus.completed ↔
      (executeRun nodes edges handler).progress = 100) := by
  by_cases hcy : detectCycle nodes edges
  · have hrun : executeRun nodes edges handler =
        { status := .pending, progress := 0, results := [], procd := [], trace := [] } := by
      unfold executeRun
      rw [if_pos hcy]
    rw [hrun]
    refine ⟨List.chain'_nil, ?_, ?_⟩
    · intro x hx; exact absurd hx (List.not_mem_nil x)
    · constructor
      · intro h; exact absurd h (by simp)
      · intro h; exact absurd h (by norm_num)
  · rw [Bool.not_eq_true] at hcy
    obtain ⟨hch, hbd, hstat, hcomp, hfail, hok⟩ := executeRun_spec nodes edges handler wf hcy
    refine ⟨hch, hbd, ?_, ?_⟩
    · intro hc
      obtain ⟨hfull, hsub, hnd, hprg⟩ :=
        executeRun_completed_full nodes edges handler wf hcy hc
      have hlen : (executeRun nodes edges handler).procd.length = nodes.length := by
        have h1 : (executeRun nodes edges handler).procd.length ≤ nodes.length :=
          (List.subperm_of_subset hnd (fun v hv => hsub v hv)).length_le
        have h2 : nodes.length ≤ (executeRun nodes edges handler).procd.length :=
          (List.subperm_of_subset wf.nodesNodup (fun v hv => hfull v hv)).length_le
        omega
      rw [hprg, hlen]
      have hn0 : (nodes.length : ℚ) ≠ 0 := by
        have : 0 < nodes.length := List.length_pos.mpr hne
        exact_mod_cast Nat.pos_iff_ne_zero.mp this
      rw [div_self hn0, one_mul]
    · intro hp
      rcases hstat with hc | hf
      · exact hc
      · exact absurd hp (by have := hfail hf; exact ne_of_lt this)

/-- C3 (amended): checkpoints are written after each wave but never
    loaded; re-executing the unchanged graph with the same handlers
    re-invokes the handler of every node, and the resulting Results
    mapping equals the checkpoint contents only because re-execution is
    deterministic. -/
theorem c3_rerun_reinvokes_all {β : Type} (nodes : List String)
    (edges : List (String × String))
    (handler : String → List (String × Option β) → Except String β)
    (wf : GraphWF nodes edges) (hcy : detectCycle nodes edges = false)
    (hok : ∀ nid ∈ nodes, ∀ inp, ∃ b, handler nid inp = Except.ok b) :
    (∀ v ∈ nodes, v ∈ (executeRun nodes edges handler).procd) ∧
    (∀ v ∈ (executeRun nodes edges handler).procd, v ∈ nodes) ∧
    (executeRun nodes edges handler).procd.Nodup ∧
    (executeRun nodes edges handler).results =
      saveCheckpoint (executeRun nodes edges handler) := by
  obtain ⟨-, -, -, -, -, hokc⟩ := executeRun_spec nodes edges handler wf hcy
  obtain ⟨hfull, hsub, hnd, -⟩ :=
    executeRun_completed_full nodes edges handler wf hcy (hokc hok)
  exact ⟨hfull, hsub, hnd, rfl⟩

/- ### Concrete executor runs for the C2 and C3 counterexamples -/

/-- Handler that succeeds with output 0 on every node, standing for a
    pipeline run in which every node handler returns normally. -/
def oneNodeHandler : String → List (String × Option Nat) → Except String Nat :=
  fun _ _ => Except.ok 0

/-- C2 counterexample: a completed single-node run terminates with the
    stored progress equal to 100 (the source stores completed divided by
    total, scaled by 100), not 1.0 as the progress-in-the-unit-interval
    reading of the claim requires. -/
theorem c2_counterexample :
    (executeRun ["A"] [] oneNodeHandler).status = RunStatus.completed ∧
    (executeRun ["A"] [] oneNodeHandler).progress = 100 ∧
    ¬ ((executeRun ["A"] [] oneNodeHandler).progress = 1) := by
  norm_num [executeRun, detectCycle, kahnLoop, decStep, initIndeg, buildAdj, execLoop,
    processOutputs, gatherInputs, sdictSet, sdictLookup, oneNodeHandler]

/-- Concrete instance of the amended C2 theorem on the one-node graph. -/
theorem c2_progress_semantics_witness :
    List.Chain' (· ≤ ·) (executeRun ["A"] [] oneNodeHandler).trace ∧
    (∀ x ∈ (executeRun ["A"] [] oneNodeHandler).trace, 0 ≤ x ∧ x ≤ 100) ∧
    ((executeRun ["A"] [] oneNodeHandler).status = RunStatus.completed ↔
      (executeRun ["A"] [] oneNodeHandler).progress = 100) :=
  c2_progress_semantics ["A"] [] oneNodeHandler
    ⟨by decide, List.nodup_nil, fun e he => absurd he (List.not_mem_nil e),
     fun e he => absurd he (List.not_mem_nil e)⟩
    (by simp)

/-- C3 counterexample: after the first run the saved checkpoint holds the
    output of node A, yet executing the unchanged graph again still
    processes node A (its handler is invoked; the executor never reads a
    checkpoint back), contradicting the claimed no-op re-run in which no
    node is processed. -/
theorem c3_counterexample :
    sdictLookup (saveCheckpoint (executeRun ["A"] [] oneNodeHandler)) "A" = some 0 ∧
    (executeRun ["A"] [] oneNodeHandler).procd = ["A"] := by
  norm_num [saveCheckpoint, executeRun, detectCycle, kahnLoop, decStep, initIndeg, buildAdj,
    execLoop, processOutputs, gatherInputs, sdictSet, sdictLookup, oneNodeHandler]

/-- Concrete instance of the amended C3 theorem on the one-node graph. -/
theorem c3_rerun_reinvokes_all_witness :
    (∀ v ∈ ["A"], v ∈ (executeRun ["A"] [] oneNodeHandler).procd) ∧
    (∀ v ∈ (executeRun ["A"] [] oneNodeHandler).procd, v ∈ (["A"] : List String)) ∧
    (executeRun ["A"] [] oneNodeHandler).procd.Nodup ∧
    (executeRun ["A"] [] oneNodeHandler).results =
      saveCheckpoint (executeRun ["A"] [] oneNodeHandler) :=
  c3_rerun_reinvokes_all ["A"] [] oneNodeHandler
    ⟨by decide, List.nodup_nil, fun e he => absurd he (List.not_mem_nil e),
     fun e he => absurd he (List.not_mem_nil e)⟩
    (by decide)
    (fun _ _ inp => ⟨0, rfl⟩)

/- ### C10: unhandled node types fall through to the stub branch -/

/-- The node types with a dedicated branch in _execute_node. -/
def handledTypes : List String :=
  ["loader", "llm", "splitter", "embedder", "retriever", "reranker"]

/-- Output value of a node: either the stub produced by the simulation
    fallback branch, recording the node type and the number of gathered
    inputs, or an output of one of the dedicated handlers (abstracted, as
    they perform external I/O). The processed_at field of the stub is a
    wall-clock timestamp and stays outside the embedding, as does the
    fixed asyncio.sleep(0.5) delay before it is returned. -/
inductive NodeOutput where
  | stub (nodeType : String) (inputsCount : Nat)
  | external (payload : Nat)
  deriving DecidableEq, Repr, Inhabited

/-- Dispatch of _execute_node over the node type: the six handled kinds
    run their dedicated logic, modelled by an oracle; every other type
    falls through to the simulation branch and returns the stub output. -/
def dispatchNode
    (oracle : String → List (String × Option NodeOutput) → Except String NodeOutput)
    (nodeType : String) (inputs : List (String × Option NodeOutput)) :
    Except String NodeOutput :=
  if nodeType ∈ handledTypes then oracle nodeType inputs
  else Except.ok (NodeOutput.stub nodeType inputs.length)

/-- C10: a node whose type lies outside the handled set never fails: the
    dispatch returns the stub success output recording the node type and
    the gathered-input count, and a well-formed acyclic nonempty graph
    consisting only of such nodes runs to status COMPLETED at progress
    100, whatever the oracle does on the handled types. -/
theorem c10_unhandled_stub
    (oracle : String → List (String × Option NodeOutput) → Except String NodeOutput)
    (typeOf : String → String) (nodes : List String)
    (edges : List (String × String)) (wf : GraphWF nodes edges)
    (hcy : detectCycle nodes edges = false) (hne : nodes ≠ [])
    (hunh : ∀ nid ∈ nodes, typeOf nid ∉ handledTypes) :
    (∀ t, t ∉ handledTypes → ∀ inputs,
       dispatchNode oracle t inputs = Except.ok (NodeOutput.stub t inputs.length)) ∧
    (executeRun nodes edges
       (fun nid inputs => dispatchNode oracle (typeOf nid) inputs)).status =
      RunStatus.completed ∧
    (executeRun nodes edges
       (fun nid inputs => dispatchNode oracle (typeOf nid) inputs)).progress = 100 := by
  have hdisp : ∀ t, t ∉ handledTypes → ∀ inputs,
      dispatchNode oracle t inputs = Except.ok (NodeOutput.stub t inputs.length) := by
    intro t ht inputs
    unfold dispatchNode
    rw [if_neg ht]
  obtain ⟨-, -, -, -, -, hokc⟩ := executeRun_spec nodes edges
    (fun nid inputs => dispatchNode oracle (typeOf nid) inputs) wf hcy
  have hcomp := hokc (fun nid hnid inp =>
    ⟨NodeOutput.stub (typeOf nid) inp.length, hdisp (typeOf nid) (hunh nid hnid) inp⟩)
  obtain ⟨hfull, hsub, hnd, hprg⟩ := executeRun_completed_full nodes edges
    (fun nid inputs => dispatchNode oracle (typeOf nid) inputs) wf hcy hcomp
  refine ⟨hdisp, hcomp, ?_⟩
  have hlen : (executeRun nodes edges
      (fun nid inputs => dispatchNode oracle (typeOf nid) inputs)).procd.length =
      nodes.length := by
    have h1 := (List.subperm_of_subset hnd (fun v hv => hsub v hv)).length_le
    have h2 := (List.subperm_of_subset wf.nodesNodup (fun v hv => hfull v hv)).length_le
    omega
  rw [hprg, hlen]
  have hn0 : (nodes.length : ℚ) ≠ 0 := by
    have : 0 < nodes.length := List.length_pos.mpr hne
    exact_mod_cast Nat.pos_iff_ne_zero.mp this
  rw [div_self hn0, one_mul]

/-- Node-type assignment giving every node an unhandled type. -/
def customType : String → String := fun _ => "custom"

/-- Oracle refusing every handled node type; the run below never calls
    it, showing handled-type behavior is irrelevant to unhandled nodes. -/
def noOracle : String → List (String × Option NodeOutput) → Except String NodeOutput :=
  fun _ _ => Except.error "not implemented"

/-- Concrete instance of the C10 theorem on the two-node chain A to B
    whose nodes both carry the unhandled type custom. -/
theorem c10_unhandled_stub_witness :
    (∀ t, t ∉ handledTypes → ∀ inputs,
       dispatchNode noOracle t inputs = Except.ok (NodeOutput.stub t inputs.length)) ∧
    (executeRun ["A", "B"] [("A", "B")]
       (fun nid inputs => dispatchNode noOracle (customType nid) inputs)).status =
      RunStatus.completed ∧
    (executeRun ["A", "B"] [("A", "B")]
       (fun nid inputs => dispatchNode noOracle (customType nid) inputs)).progress = 100 :=
  c10_unhandled_stub noOracle customType ["A", "B"] [("A", "B")]
    ⟨by decide, by decide, by decide, by decide⟩
    (by decide) (by simp) (by decide)

end ChunkScope
